import Mathlib

/-!
wavgain: chunk walk, header copy and 16-bit gain loop.

A shallow embedding of `src/wavgain.c`.  Files are lists of bytes, a stream is a file
together with a position, and the local structs of `main` are kept as raw byte memory so
that short reads leave the bytes they did not reach unchanged.

Platform assumptions, fixed once: little-endian LP64 target (x86-64), `float` is IEEE-754
binary32 with round-to-nearest-even and products evaluated in single precision, a float is
narrowed to `short` through a 32-bit truncating conversion whose low 16 bits are kept, and
reading a regular file never sets the stream error flag.  Lines 95-114 of `main` (argument
count, opening both files) are taken as passed: the output file exists and is empty when
the model starts.
-/

namespace Wavgain

/-- One octet of a file or of memory. -/
abbrev Byte := Fin 256

/-- Constant `ID_RIFF` (line 38): the bytes "RIFF" read as a little-endian word. -/
def ID_RIFF : Nat := 0x46464952

/-- Constant `ID_WAVE` (line 39): the bytes "WAVE". -/
def ID_WAVE : Nat := 0x45564157

/-- Constant `ID_FMT` (line 40): the bytes "fmt ". -/
def ID_FMT : Nat := 0x20746d66

/-- Constant `ID_DATA` (line 41): the bytes "data". -/
def ID_DATA : Nat := 0x61746164

/-- A `uint16_t` field at byte offset `off` of a memory block, little-endian. -/
def le16 (mem : List Byte) (off : Nat) : Nat :=
  (mem.getD off 0).val + 256 * (mem.getD (off + 1) 0).val

/-- A `uint32_t` field at byte offset `off` of a memory block, little-endian. -/
def le32 (mem : List Byte) (off : Nat) : Nat :=
  (mem.getD off 0).val + 256 * (mem.getD (off + 1) 0).val
    + 65536 * (mem.getD (off + 2) 0).val + 16777216 * (mem.getD (off + 3) 0).val

/-- Field `riff_id` of `struct riff_wave_header` (offset 0). -/
def riff_id (hdr : List Byte) : Nat := le32 hdr 0

/-- Field `wave_id` of `struct riff_wave_header` (offset 8, after `riff_sz`). -/
def wave_id (hdr : List Byte) : Nat := le32 hdr 8

/-- Field `id` of `struct chunk_header`. -/
def chunk_id (hdr : List Byte) : Nat := le32 hdr 0

/-- Field `sz` of `struct chunk_header`. -/
def chunk_sz (hdr : List Byte) : Nat := le32 hdr 4

/-- Field `num_channels` of `struct chunk_fmt`. -/
def num_channels (fmt : List Byte) : Nat := le16 fmt 2

/-- Field `bits_per_sample` of `struct chunk_fmt`. -/
def bits_per_sample (fmt : List Byte) : Nat := le16 fmt 14

/-- The bytes `xfread(ptr, size, nmemb, stream)` obtains with the stream at `pos`: up to
`size * nmemb` bytes, fewer at end of file, none beyond it.  The wrapper only exits when
the stream error flag is set, which a plain file never does, so it never exits here. -/
def xfread (file : List Byte) (pos size nmemb : Nat) : List Byte :=
  (file.drop pos).take (size * nmemb)

/-- Memory block `mem` after a read stored `got` at its start; bytes the read did not
reach keep their earlier value. -/
def store (got mem : List Byte) : List Byte :=
  got ++ mem.drop got.length

/-- What the program does not control: the indeterminate first content of the locals
`riff_wave_header`, `chunk_header`, `chunk_fmt` and of the block `malloc` returns, whether
`malloc` returns a null pointer for a request, and the value of the flag `close` when the
sample loop tests it at the end of its k-th pass (the source sets it only in
`stream_close`). -/
structure Env where
  riff_wave_header : List Byte
  chunk_header : List Byte
  chunk_fmt : List Byte
  buffer : List Byte
  malloc_null : Nat → Bool
  close : Nat → Bool

/-- The variables the chunk walk changes: the position of `input_file` and the two
structs. -/
structure Reader where
  pos : Nat
  chunk_header : List Byte
  chunk_fmt : List Byte
deriving DecidableEq

/-- The do-while of lines 124-142, one pass per unit of fuel; `none` when the fuel is
used up before a data chunk header stops the walk. -/
def chunkWalk (file : List Byte) : Nat → Reader → Option Reader
  | 0, _ => none
  | fuel + 1, st =>
    let got := xfread file st.pos 8 1
    let hdr := store got st.chunk_header
    let pos := st.pos + got.length
    if chunk_id hdr = ID_FMT then
      let got2 := xfread file pos 16 1
      let fmt := store got2 st.chunk_fmt
      let pos2 := pos + got2.length
      if 16 < chunk_sz hdr then
        chunkWalk file fuel (Reader.mk (pos2 + (chunk_sz hdr - 16)) hdr fmt)
      else
        chunkWalk file fuel (Reader.mk pos2 hdr fmt)
    else if chunk_id hdr = ID_DATA then
      some (Reader.mk pos hdr st.chunk_fmt)
    else
      chunkWalk file fuel (Reader.mk (pos + chunk_sz hdr) hdr st.chunk_fmt)

/-- The `float gain`: a finite binary32 value written as the dyadic `m * 2 ^ e`, or an
infinity or NaN.  Every finite value has one form with `m` odd (zero is `0 * 2 ^ 0`):
1.0 is `finite 1 0`, 2.0 is `finite 1 1`, 0.75 is `finite 3 (-2)`. -/
inductive Gain where
  | finite (m : Int) (e : Int)
  | nonfinite
deriving DecidableEq

/-- Number of binary digits of `n`, by halving; `fuel = n` always suffices. -/
def bitsAux : Nat → Nat → Nat
  | 0, _ => 0
  | fuel + 1, n => if n = 0 then 0 else bitsAux fuel (n / 2) + 1

/-- Number of binary digits of `n`. -/
def bits (n : Nat) : Nat := bitsAux n n

/-- The binary32 nearest to the dyadic `n * 2 ^ e` (ties to even), again as a dyadic:
24 significant bits, no quantum below `2 ^ (-149)`.  A result too large for binary32 is
left as it is: its magnitude exceeds `2 ^ 31`, and the narrowing below treats every
such value like an infinity. -/
def f32round (n e : Int) : Int × Int :=
  let a := n.natAbs
  let q := max (e + (bits a : Int) - 24) (-149)
  if q ≤ e then (n, e)
  else
    let k := (q - e).toNat
    let d := a / 2 ^ k
    let r := a % 2 ^ k
    let half := 2 ^ (k - 1)
    let d1 := if half < r ∨ (r = half ∧ d % 2 = 1) then d + 1 else d
    (n.sign * (d1 : Int), q)

/-- A value of type `short` from its 16-bit pattern. -/
def toInt16 (u : Nat) : Int :=
  if u % 65536 < 32768 then ((u % 65536 : Nat) : Int) else ((u % 65536 : Nat) : Int) - 65536

/-- The dyadic `m * 2 ^ e` truncated toward zero. -/
def truncZ (m e : Int) : Int :=
  if 0 ≤ e then m * 2 ^ e.toNat else Int.tdiv m (2 ^ (-e).toNat)

/-- Narrowing of the float `m * 2 ^ e` to `short`: truncate toward zero into a 32-bit
register and keep the low 16 bits; a value outside the 32-bit range gives the pattern
`0x80000000`, whose low half is 0. -/
def f32_to_short (m e : Int) : Int :=
  let t := truncZ m e
  if -2147483648 ≤ t ∧ t < 2147483648 then toInt16 (t % 65536).toNat else 0

/-- Line 183, `short sample = (float) s * gain`. -/
def apply_gain (gain : Gain) (s : Int) : Int :=
  match gain with
  | Gain.finite m e =>
    let r := f32round (s * m) e
    f32_to_short r.1 r.2
  | Gain.nonfinite => 0

/-- The `short` at index `p` of the buffer seen as `short *`. -/
def sample16 (buffer : List Byte) (p : Nat) : Int :=
  toInt16 (le16 buffer (2 * p))

/-- Line 184, `fwrite(&sample, 2, 1, output_file)`: the two bytes of a `short`, low byte
first. -/
def put16 (v : Int) : List Byte :=
  let u := (v % 65536).toNat
  [⟨u % 256, Nat.mod_lt _ (by decide)⟩, ⟨u / 256 % 256, Nat.mod_lt _ (by decide)⟩]

/-- The inner `for` of lines 182-185 with `k` channels still to go and `buffer_ptr` at
index `p`. -/
def inner_loop (gain : Gain) (buffer : List Byte) : Nat → Nat → List Byte
  | 0, _ => []
  | k + 1, p => put16 (apply_gain gain (sample16 buffer p)) ++ inner_loop gain buffer k (p + 1)

/-- The outer `for` of lines 181-186: `i` runs from 0 in steps of `c` while `i < n`, and
`buffer_ptr` (index `p`) moves on by `c` samples in each pass.  `none` when the fuel is
used up, which is what happens for `c = 0` and `n > 0`. -/
def outer_loop (gain : Gain) (buffer : List Byte) (c n : Nat) : Nat → Nat → Nat → Option (List Byte)
  | 0, _, _ => none
  | fuel + 1, i, p =>
    if i < n then
      match outer_loop gain buffer c n fuel (i + c) (p + c) with
      | none => none
      | some rest => some (inner_loop gain buffer c p ++ rest)
    else some []

/-- Lines 179-187: what one filled buffer adds to the output.  Only 2-byte samples are
handled; for any other `bytes_per_sample` nothing is written. -/
def process_buffer (gain : Gain) (bps c : Nat) (buffer : List Byte) (num_read : Nat) :
    Option (List Byte) :=
  if bps = 2 then outer_loop gain buffer c (num_read / bps) (num_read / bps + 1) 0 0
  else some []

/-- The do-while of lines 176-189, with `k` passes done, the input at `pos` and the
buffer holding `buffer`; returns all bytes written from here on. -/
def sample_loop (gain : Gain) (close : Nat → Bool) (file : List Byte) (size bps c : Nat) :
    Nat → Nat → Nat → List Byte → Option (List Byte)
  | 0, _, _, _ => none
  | fuel + 1, k, pos, buffer =>
    let got := xfread file pos 1 size
    let num_read := got.length
    let buffer1 := store got buffer
    if 0 < num_read then
      match process_buffer gain bps c buffer1 num_read with
      | none => none
      | some w =>
        if close k = false ∧ 0 < num_read then
          match sample_loop gain close file size bps c fuel (k + 1) (pos + num_read) buffer1 with
          | none => none
          | some rest => some (w ++ rest)
        else some w
    else some []

/-- How a run ends: the exit status with the content of the output file, or undefined
behaviour (a write past the end of `headers_buffer`). -/
inductive Outcome where
  | exit (status : Nat) (output : List Byte)
  | undefined_behaviour
deriving DecidableEq

/-- Lines 151-157: `bytes_per_sample` from the bit depth, 0 when it is neither 32 nor 16. -/
def bytes_per_sample (fmt : List Byte) : Nat :=
  if bits_per_sample fmt = 32 then 4 else if bits_per_sample fmt = 16 then 2 else 0

/-- Line 159, `size = chunk_fmt.num_channels * bytes_per_sample * frame_size`. -/
def buffer_size (fmt : List Byte) : Nat :=
  num_channels fmt * bytes_per_sample fmt * 1024

/-- Lines 144-194, from the end of the chunk walk to `return 0`. -/
def after_walk (env : Env) (gain : Gain) (file : List Byte) (st : Reader) : Option Outcome :=
  let size := buffer_size st.chunk_fmt
  if env.malloc_null size = true then some (Outcome.exit 1 [])
  else
    let dataposition := st.pos
    if 100 < dataposition then some Outcome.undefined_behaviour
    else
      let got := xfread file 0 dataposition 1
      let headers_buffer := store got (List.replicate 100 0)
      let written := headers_buffer.take dataposition
      match sample_loop gain env.close file size (bytes_per_sample st.chunk_fmt)
          (num_channels st.chunk_fmt) (file.length + 1) 0 got.length env.buffer with
      | none => none
      | some w => some (Outcome.exit 0 (written ++ w))

/-- The program from line 116 on; `fuel` bounds the passes of the chunk walk and `none`
means the walk has not stopped within it. -/
def main (fuel : Nat) (env : Env) (gain : Gain) (file : List Byte) : Option Outcome :=
  let got := xfread file 0 12 1
  let hdr := store got env.riff_wave_header
  if riff_id hdr ≠ ID_RIFF ∨ wave_id hdr ≠ ID_WAVE then some (Outcome.exit 1 [])
  else
    match chunkWalk file fuel (Reader.mk got.length env.chunk_header env.chunk_fmt) with
    | none => none
    | some st => after_walk env gain file st

/-- The samples at indices `p`, `p + 1`, ..., `p + cnt - 1` of the buffer, each scaled and
written: the closed form of what the two `for` loops emit. -/
def emit (gain : Gain) (buffer : List Byte) (p cnt : Nat) : List Byte :=
  (List.range' p cnt).flatMap (fun j => put16 (apply_gain gain (sample16 buffer j)))

/-- A byte sequence read as consecutive little-endian 16-bit samples, every complete one
scaled and written back; a trailing odd byte is dropped. -/
def scale_samples (gain : Gain) : List Byte → List Byte
  | lo :: hi :: rest =>
    put16 (apply_gain gain (toInt16 (lo.val + 256 * hi.val))) ++ scale_samples gain rest
  | _ => []

/-- Number of passes of the outer `for` over `x` remaining samples in steps of `c`. -/
def passes (c x : Nat) : Nat := (x + c - 1) / c

/-- The chunk reader accepts `file`: the container check of lines 117-118 passes and the
walk stops at a data chunk header within `fuel` passes, leaving the reader in `st`, whose
position is the data payload offset. -/
def accepts (fuel : Nat) (env : Env) (file : List Byte) (st : Reader) : Prop :=
  riff_id (store (xfread file 0 12 1) env.riff_wave_header) = ID_RIFF ∧
  wave_id (store (xfread file 0 12 1) env.riff_wave_header) = ID_WAVE ∧
  chunkWalk file fuel (Reader.mk (xfread file 0 12 1).length env.chunk_header env.chunk_fmt)
    = some st

instance accepts_decidable (fuel : Nat) (env : Env) (file : List Byte) (st : Reader) :
    Decidable (accepts fuel env file st) := by
  unfold accepts
  infer_instance

/-- The two bytes of a 16-bit value, low byte first (for writing example files). -/
def bytes16 (n : Nat) : List Byte :=
  [⟨n % 256, Nat.mod_lt _ (by decide)⟩, ⟨n / 256 % 256, Nat.mod_lt _ (by decide)⟩]

/-- The four bytes of a 32-bit value, low byte first (for writing example files). -/
def bytes32 (n : Nat) : List Byte :=
  [⟨n % 256, Nat.mod_lt _ (by decide)⟩, ⟨n / 256 % 256, Nat.mod_lt _ (by decide)⟩,
   ⟨n / 65536 % 256, Nat.mod_lt _ (by decide)⟩, ⟨n / 16777216 % 256, Nat.mod_lt _ (by decide)⟩]

/-- A 16-byte PCM format payload: tag 1, `c` channels, 8000 Hz, `b` bits per sample. -/
def fmt_payload (c b : Nat) : List Byte :=
  bytes16 1 ++ bytes16 c ++ bytes32 8000 ++ bytes32 (8000 * c * (b / 8)) ++ bytes16 (c * (b / 8))
    ++ bytes16 b

/-- A canonical WAV file: 12-byte container header, a 16-byte format chunk, and a data
chunk holding `payload`; the data payload starts at offset 44. -/
def wav44 (c b : Nat) (payload : List Byte) : List Byte :=
  bytes32 ID_RIFF ++ bytes32 (36 + payload.length) ++ bytes32 ID_WAVE
    ++ bytes32 ID_FMT ++ bytes32 16 ++ fmt_payload c b
    ++ bytes32 ID_DATA ++ bytes32 payload.length ++ payload

/-- The reader state the walk leaves on a `wav44` file. -/
def wav44_reader (c b n : Nat) : Reader :=
  Reader.mk 44 (bytes32 ID_DATA ++ bytes32 n) (fmt_payload c b)

/-- An environment in which indeterminate memory happens to read as zero, `malloc`
never returns null and `close` is never set. -/
def zero_env : Env :=
  Env.mk (List.replicate 12 0) (List.replicate 8 0) (List.replicate 16 0) []
    (fun _ => false) (fun _ => false)

/-- A 12-byte file with the two container constants swapped. -/
def swapped_magic : List Byte :=
  bytes32 ID_WAVE ++ bytes32 0 ++ bytes32 ID_RIFF

/-- Tag "LIST" as a little-endian word. -/
def ID_LIST : Nat := 0x5453494c

/-- A file that ends right after an empty "LIST" chunk: container header, then the
8-byte chunk header, and nothing else. -/
def no_data_chunk : List Byte :=
  bytes32 ID_RIFF ++ bytes32 12 ++ bytes32 ID_WAVE ++ bytes32 ID_LIST ++ bytes32 0

/-- The reader state left by a walk that stops at offset `pos` on a data chunk header
declaring `n` bytes, after a format chunk holding `fmt_payload c b`. -/
def reader_at (pos c b n : Nat) : Reader :=
  Reader.mk pos (bytes32 ID_DATA ++ bytes32 n) (fmt_payload c b)

/-- A WAV file with a "LIST" chunk holding `body` between the format chunk and the data
chunk; the data payload starts at offset `52 + body.length`. -/
def wav_list (c b : Nat) (body payload : List Byte) : List Byte :=
  bytes32 ID_RIFF ++ bytes32 (44 + body.length + payload.length) ++ bytes32 ID_WAVE
    ++ bytes32 ID_FMT ++ bytes32 16 ++ fmt_payload c b
    ++ bytes32 ID_LIST ++ bytes32 body.length ++ body
    ++ bytes32 ID_DATA ++ bytes32 payload.length ++ payload

/-- Where the RIFF layout the spec cites ("4-byte tag + u32 length + payload, payload
padded to even length") places the chunk that follows a chunk with header at `off` and
declared size `sz`. -/
def riff_next (off sz : Nat) : Nat := off + 8 + sz + sz % 2

/-- A walk over whole RIFF chunks in that layout, from the chunk header at `off`: the
offset of the payload of the first data chunk, `none` if the file ends first. -/
def riff_walk_spec (file : List Byte) : Nat → Nat → Option Nat
  | 0, _ => none
  | fuel + 1, off =>
    if off + 8 ≤ file.length then
      if le32 file off = ID_DATA then some (off + 8)
      else riff_walk_spec file fuel (riff_next off (le32 file (off + 4)))
    else none

/-- A RIFF-conformant file whose format chunk declares 17 bytes: 16 descriptor bytes,
one extra byte, one pad byte, then the data chunk (header at 38, payload at 46). -/
def odd_fmt_file : List Byte :=
  bytes32 ID_RIFF ++ bytes32 40 ++ bytes32 ID_WAVE
    ++ bytes32 ID_FMT ++ bytes32 17 ++ fmt_payload 1 16 ++ [0] ++ [0]
    ++ bytes32 ID_DATA ++ bytes32 2 ++ bytes16 7

/-- A file whose format chunk declares 18 bytes (16 descriptor bytes and two more),
followed by an empty data chunk with its header at offset 38. -/
def ext_fmt_file : List Byte :=
  bytes32 ID_RIFF ++ bytes32 38 ++ bytes32 ID_WAVE
    ++ bytes32 ID_FMT ++ bytes32 18 ++ fmt_payload 2 16 ++ [0, 0]
    ++ bytes32 ID_DATA ++ bytes32 0

/-- A chunk as it lies in a file: its tag and its payload; the declared size is the
length of the payload. -/
structure Chunk where
  tag : Nat
  body : List Byte

/-- The bytes of a chunk: 4-byte tag, 4-byte payload length, payload. -/
def chunk_bytes (ch : Chunk) : List Byte :=
  bytes32 ch.tag ++ (bytes32 ch.body.length ++ ch.body)

/-- Chunks laid out one after the other, each at its declared size. -/
def chunks_bytes : List Chunk → List Byte
  | [] => []
  | ch :: rest => chunk_bytes ch ++ chunks_bytes rest

/-- A chunk that may stand before the data chunk: tag and size fit 32 bits, the tag is
not "data", and a format chunk holds at least the 16 descriptor bytes. -/
def chunk_ok (ch : Chunk) : Prop :=
  ch.tag < 4294967296 ∧ ch.tag ≠ ID_DATA ∧ ch.body.length < 4294967296
    ∧ (ch.tag = ID_FMT → 16 ≤ ch.body.length)

/-- A RIFF/WAVE file: container header with size field `riff_sz`, the chunks `chunks`,
then the data chunk header with the 4 size bytes `data_sz`, then `rest` (the data
payload and whatever follows it). -/
def riff_file (riff_sz : Nat) (chunks : List Chunk) (data_sz rest : List Byte) : List Byte :=
  (bytes32 ID_RIFF ++ (bytes32 riff_sz ++ bytes32 ID_WAVE))
    ++ (chunks_bytes chunks ++ (bytes32 ID_DATA ++ (data_sz ++ rest)))

/-- The memory of `chunk_fmt` after the walk has passed the chunks `l`, starting from
the content `fmt`: every format chunk stores its first 16 payload bytes. -/
def fmt_after : List Chunk → List Byte → List Byte
  | [], fmt => fmt
  | ch :: rest, fmt =>
    fmt_after rest (if ch.tag = ID_FMT then store (ch.body.take 16) fmt else fmt)

instance chunk_ok_decidable (ch : Chunk) : Decidable (chunk_ok ch) := by
  unfold chunk_ok
  infer_instance

/-- An environment like `zero_env` in which the block returned by `malloc` holds stale
bytes: fourteen zero bytes, then `0xCD 0xAB`. -/
def stale_env : Env :=
  Env.mk (List.replicate 12 0) (List.replicate 8 0) (List.replicate 16 0)
    (List.replicate 14 0 ++ [0xCD, 0xAB]) (fun _ => false) (fun _ => false)

/-- A stereo 16-bit file whose data chunk holds one frame (4 bytes) and is followed by a
"LIST" chunk with a 2-byte payload: 14 bytes, that is 7 samples, follow the data chunk
header. -/
def tail_chunk_file : List Byte :=
  riff_file 50 [Chunk.mk ID_FMT (fmt_payload 2 16)] (bytes32 4)
    (bytes16 1 ++ bytes16 2 ++ (bytes32 ID_LIST ++ bytes32 2 ++ [9, 9]))

theorem bitsAux_le (fuel : Nat) : ∀ (n k : Nat), n < 2 ^ k → bitsAux fuel n ≤ k := by
  induction fuel with
  | zero => intro n k _; simp [bitsAux]
  | succ f ih =>
    intro n k h
    unfold bitsAux
    split
    · exact Nat.zero_le _
    · rename_i hn
      cases k with
      | zero => simp at h; omega
      | succ k =>
        have : n / 2 < 2 ^ k := by
          rw [Nat.div_lt_iff_lt_mul (by decide)]
          rw [pow_succ] at h; exact h
        have := ih (n / 2) k this
        omega

theorem bits_le {n k : Nat} (h : n < 2 ^ k) : bits n ≤ k := bitsAux_le n n k h

theorem f32round_exact (n e : Int) (hn : n.natAbs < 2 ^ 24) (he : -149 ≤ e) :
    f32round n e = (n, e) := by
  have hb := bits_le hn
  unfold f32round
  simp only
  rw [if_pos]
  omega

theorem bitsAux_spec (fuel : Nat) : ∀ n : Nat, n ≤ fuel → n < 2 ^ bitsAux fuel n := by
  induction fuel with
  | zero => intro n h; simp [bitsAux]; omega
  | succ f ih =>
    intro n h
    unfold bitsAux
    split
    · rename_i h0; rw [h0]; exact Nat.one_pos
    · have := ih (n / 2) (by omega)
      rw [pow_succ]
      omega

theorem bits_spec (n : Nat) : n < 2 ^ bits n := bitsAux_spec n n (Nat.le_refl n)

/-- The rounding of the model is a rounding to nearest: the result of `f32round n e` has a
quantum `2 ^ k` times that of the input, a mantissa of at most 24 bits (`2 ^ 24` after a
carry), and lies within half a quantum of the exact value. -/
theorem f32round_nearest (n e : Int) :
    e ≤ (f32round n e).2
    ∧ (f32round n e).1.natAbs ≤ 2 ^ 24
    ∧ 2 * |(f32round n e).1 * 2 ^ ((f32round n e).2 - e).toNat - n|
        ≤ 2 ^ ((f32round n e).2 - e).toNat := by
  have hb := bits_spec n.natAbs
  unfold f32round
  simp only
  by_cases hq : max (e + (bits n.natAbs : Int) - 24) (-149) ≤ e
  · rw [if_pos hq]
    refine ⟨le_refl _, ?_, ?_⟩
    · have h24 : bits n.natAbs ≤ 24 := by omega
      have := Nat.pow_le_pow_right (show 0 < 2 by decide) h24
      omega
    · simp
  · rw [if_neg hq]
    simp only
    generalize hk : (max (e + (bits n.natAbs : Int) - 24) (-149) - e).toNat = k
    have hk1 : 1 ≤ k := by omega
    have hkb : bits n.natAbs ≤ 24 + k := by omega
    have hpow : 2 ^ k = 2 * 2 ^ (k - 1) := by
      have : k = (k - 1) + 1 := by omega
      conv_lhs => rw [this, pow_succ]
      ring
    have hpos : 0 < 2 ^ (k - 1) := Nat.pow_pos (by decide)
    have hdm := Nat.div_add_mod n.natAbs (2 ^ k)
    have hml := Nat.mod_lt n.natAbs (show 0 < 2 ^ k by rw [hpow]; omega)
    have hdlt : n.natAbs / 2 ^ k < 2 ^ 24 := by
      rw [Nat.div_lt_iff_lt_mul (by rw [hpow]; omega), ← pow_add]
      exact lt_of_lt_of_le hb (Nat.pow_le_pow_right (by decide) hkb)
    generalize hd : n.natAbs / 2 ^ k = d at hdm hdlt
    generalize hr : n.natAbs % 2 ^ k = r at hdm hml
    generalize hh : 2 ^ (k - 1) = half at hpow hpos
    generalize hP : 2 ^ k = P at hpow hdm hml
    have hPi : ((2 : Int) ^ k) = (P : Int) := by rw [← hP]; push_cast; rfl
    have hd1 : ∀ d1 : Nat, (d1 = d + 1 ∧ half ≤ r) ∨ (d1 = d ∧ r ≤ half) →
        (n.sign * (d1 : Int)).natAbs ≤ 2 ^ 24
        ∧ 2 * |n.sign * (d1 : Int) * 2 ^ k - n| ≤ 2 ^ k := by
      intro d1 hcase
      have hdP : (d : Int) * P + r = n.natAbs := by exact_mod_cast (by rw [Nat.mul_comm]; exact hdm)
      rcases Int.lt_trichotomy n 0 with hn | hn | hn
      · have hs : n.sign = -1 := Int.sign_eq_neg_one_of_neg hn
        have ha : (n.natAbs : Int) = -n := by omega
        rw [hs, hPi]
        constructor
        · rcases hcase with ⟨h1, _⟩ | ⟨h1, _⟩ <;> subst h1 <;> simp <;> omega
        · rcases hcase with ⟨h1, h2⟩ | ⟨h1, h2⟩
          · subst h1
            have : -1 * ((d + 1 : Nat) : Int) * P - n = -(P - r) := by push_cast; linarith
            rw [this, abs_neg, abs_of_nonneg (by omega)]
            omega
          · subst h1
            have : -1 * (d1 : Int) * P - n = r := by linarith
            rw [this, abs_of_nonneg (by omega)]
            omega
      · subst hn
        simp
      · have hs : n.sign = 1 := Int.sign_eq_one_of_pos hn
        have ha : (n.natAbs : Int) = n := by omega
        rw [hs, hPi]
        constructor
        · rcases hcase with ⟨h1, _⟩ | ⟨h1, _⟩ <;> subst h1 <;> simp <;> omega
        · rcases hcase with ⟨h1, h2⟩ | ⟨h1, h2⟩
          · subst h1
            have : 1 * ((d + 1 : Nat) : Int) * P - n = P - r := by push_cast; linarith
            rw [this, abs_of_nonneg (by omega)]
            omega
          · subst h1
            have : 1 * (d1 : Int) * P - n = -r := by linarith
            rw [this, abs_neg, abs_of_nonneg (by omega)]
            omega
    have hq2 : (max (e + (bits n.natAbs : Int) - 24) (-149) - e).toNat = k := hk
    refine ⟨by omega, ?_⟩
    by_cases hup : half < r ∨ (r = half ∧ d % 2 = 1)
    · rw [if_pos hup]
      exact hd1 (d + 1) (Or.inl ⟨rfl, by omega⟩)
    · rw [if_neg hup]
      exact hd1 d (Or.inr ⟨rfl, by omega⟩)

theorem toInt16_range (u : Nat) : -32768 ≤ toInt16 u ∧ toInt16 u ≤ 32767 := by
  unfold toInt16
  split <;> omega

theorem toInt16_wrap (s : Int) (h1 : -32768 ≤ s) (h2 : s ≤ 32767) :
    toInt16 (s % 65536).toNat = s := by
  unfold toInt16
  have h3 : ((s % 65536).toNat : Int) = s % 65536 :=
    Int.toNat_of_nonneg (Int.emod_nonneg _ (by decide))
  split <;> omega

theorem apply_gain_range (gain : Gain) (s : Int) :
    -32768 ≤ apply_gain gain s ∧ apply_gain gain s ≤ 32767 := by
  unfold apply_gain
  cases gain with
  | nonfinite => simp
  | finite m e =>
    simp only [f32_to_short]
    split
    · exact toInt16_range _
    · simp

theorem bits_pos {n : Nat} (h : 0 < n) : 0 < bits n := by
  have := bits_spec n
  rcases Nat.eq_zero_or_pos (bits n) with h0 | h0
  · rw [h0] at this; omega
  · exact h0

theorem bits_double {n : Nat} (h : 0 < n) : bits (2 * n) = bits n + 1 := by
  have hu := bits_spec n
  have hp := bits_pos h
  have hlow : 2 ^ (bits n - 1) ≤ n := by
    by_contra hc
    have := bits_le (show n < 2 ^ (bits n - 1) by omega)
    omega
  have h1 : bits (2 * n) ≤ bits n + 1 := bits_le (by rw [pow_succ]; omega)
  have h2 : ¬ bits (2 * n) ≤ bits n := by
    intro hle
    have hu2 := bits_spec (2 * n)
    have hmono := Nat.pow_le_pow_right (show 0 < 2 by decide) hle
    have hsplit : 2 ^ bits n = 2 * 2 ^ (bits n - 1) := by
      have : bits n = (bits n - 1) + 1 := by omega
      conv_lhs => rw [this, pow_succ]
      ring
    omega
  omega

theorem tdiv_double (a b : Int) (hb : 0 < b) : Int.tdiv (2 * a) (2 * b) = Int.tdiv a b := by
  have key : ∀ x : Int, 0 ≤ x → Int.tdiv (2 * x) (2 * b) = Int.tdiv x b := by
    intro x hx
    rw [Int.tdiv_eq_ediv (by omega) (by omega), Int.tdiv_eq_ediv hx (by omega)]
    exact Int.mul_ediv_mul_of_pos _ _ (by decide)
  by_cases ha : 0 ≤ a
  · exact key a ha
  · have h1 : a = -(-a) := by omega
    have h2 : 2 * a = -(2 * (-a)) := by omega
    rw [h2, Int.neg_tdiv, key (-a) (by omega)]
    conv_rhs => rw [h1, Int.neg_tdiv]

theorem truncZ_double (n e : Int) : truncZ (2 * n) (e - 1) = truncZ n e := by
  unfold truncZ
  by_cases h1 : 0 ≤ e - 1
  · rw [if_pos h1, if_pos (by omega)]
    have : e.toNat = (e - 1).toNat + 1 := by omega
    rw [this, pow_succ]
    ring
  · rw [if_neg h1]
    by_cases h0 : 0 ≤ e
    · have he : e = 0 := by omega
      subst he
      simp only [le_refl, if_true]
      have : (-(0 - 1 : Int)).toNat = 1 := by decide
      rw [this]
      simp
    · rw [if_neg h0]
      have : (-(e - 1)).toNat = (-e).toNat + 1 := by omega
      rw [this, pow_succ, mul_comm ((2 : Int) ^ (-e).toNat) 2]
      exact tdiv_double _ _ (by positivity)

theorem apply_gain_double (m e s : Int) :
    apply_gain (Gain.finite (2 * m) (e - 1)) s = apply_gain (Gain.finite m e) s := by
  unfold apply_gain
  simp only
  have hn : s * (2 * m) = 2 * (s * m) := by ring
  rw [hn]
  generalize s * m = n
  rcases Nat.eq_zero_or_pos n.natAbs with h0 | hpos
  · have : n = 0 := Int.natAbs_eq_zero.mp h0
    subst this
    have hb : bits 0 = 0 := by decide
    have z : ∀ x : Int, (f32round 0 x).1 = 0 := by
      intro x
      unfold f32round
      simp only [Int.natAbs_zero, hb]
      split <;> simp
    have hz : ∀ x : Int, f32_to_short 0 x = 0 := by
      intro x
      unfold f32_to_short truncZ
      have : (if 0 ≤ x then (0 : Int) * 2 ^ x.toNat else Int.tdiv 0 (2 ^ (-x).toNat)) = 0 := by
        split <;> simp
      simp only [this]
      decide
    simp only [mul_zero, z, hz]
  · have ha : (2 * n).natAbs = 2 * n.natAbs := by
      rw [Int.natAbs_mul]; rfl
    have hbits := bits_double hpos
    have hsign : (2 * n).sign = n.sign := by
      rw [Int.sign_mul]
      have : Int.sign 2 = 1 := rfl
      rw [this, one_mul]
    unfold f32round
    simp only [ha, hbits, hsign]
    have hq : max (e - 1 + ((bits n.natAbs + 1 : Nat) : Int) - 24) (-149)
        = max (e + (bits n.natAbs : Int) - 24) (-149) := by
      congr 1; push_cast; ring
    rw [hq]
    generalize max (e + (bits n.natAbs : Int) - 24) (-149) = q
    by_cases hq1 : q ≤ e - 1
    · rw [if_pos hq1, if_pos (show q ≤ e by omega)]
      simp only [f32_to_short, truncZ_double]
    · rw [if_neg hq1]
      by_cases hq2 : q ≤ e
      · rw [if_pos hq2]
        have hqe : q = e := by omega
        subst hqe
        have hk : (q - (q - 1)).toNat = 1 := by omega
        simp only [hk, pow_one, Nat.sub_self, pow_zero]
        have hd : 2 * n.natAbs / 2 = n.natAbs := by omega
        have hr : 2 * n.natAbs % 2 = 0 := by omega
        simp only [hd, hr]
        rw [if_neg (by omega)]
        have : n.sign * (n.natAbs : Int) = n := Int.sign_mul_natAbs n
        rw [this]
      · rw [if_neg hq2]
        have hk : (q - (e - 1)).toNat = (q - e).toNat + 1 := by omega
        have hk1 : 1 ≤ (q - e).toNat := by omega
        rw [hk]
        generalize (q - e).toNat = k at hk1
        have hp : 2 ^ (k + 1) = 2 * 2 ^ k := by rw [pow_succ]; ring
        have hh : 2 ^ k = 2 * 2 ^ (k - 1) := by
          have : k = (k - 1) + 1 := by omega
          conv_lhs => rw [this, pow_succ]
          ring
        have hd : 2 * n.natAbs / 2 ^ (k + 1) = n.natAbs / 2 ^ k := by
          rw [hp]; exact Nat.mul_div_mul_left _ _ (by decide)
        have hr : 2 * n.natAbs % 2 ^ (k + 1) = 2 * (n.natAbs % 2 ^ k) := by
          rw [hp]; exact Nat.mul_mod_mul_left _ _ _
        simp only [hd, hr, Nat.add_sub_cancel]
        have hc : (2 ^ k < 2 * (n.natAbs % 2 ^ k)
              ∨ (2 * (n.natAbs % 2 ^ k) = 2 ^ k ∧ n.natAbs / 2 ^ k % 2 = 1))
            ↔ (2 ^ (k - 1) < n.natAbs % 2 ^ k
              ∨ (n.natAbs % 2 ^ k = 2 ^ (k - 1) ∧ n.natAbs / 2 ^ k % 2 = 1)) := by
          rw [hh]
          generalize 2 ^ (k - 1) = half
          generalize n.natAbs % (2 * half) = r
          constructor <;> intro h <;> omega
        simp only [hc]

theorem apply_gain_shift (m e s : Int) (k : Nat) :
    apply_gain (Gain.finite (2 ^ k * m) (e - k)) s = apply_gain (Gain.finite m e) s := by
  induction k with
  | zero => simp
  | succ k ih =>
    have h1 : (2 : Int) ^ (k + 1) * m = 2 * (2 ^ k * m) := by rw [pow_succ]; ring
    have h2 : e - ((k + 1 : Nat) : Int) = (e - k) - 1 := by push_cast; ring
    rw [h1, h2, apply_gain_double, ih]

theorem apply_gain_one_any (k : Nat) (s : Int) :
    apply_gain (Gain.finite (2 ^ k) (-(k : Int))) s = apply_gain (Gain.finite 1 0) s := by
  have := apply_gain_shift 1 0 s k
  simpa using this

theorem apply_gain_two_any (k : Nat) (s : Int) :
    apply_gain (Gain.finite (2 ^ k) (1 - (k : Int))) s = apply_gain (Gain.finite 1 1) s := by
  have := apply_gain_shift 1 1 s k
  simpa using this

theorem apply_gain_one (s : Int) (h1 : -32768 ≤ s) (h2 : s ≤ 32767) :
    apply_gain (Gain.finite 1 0) s = s := by
  unfold apply_gain
  simp only
  rw [f32round_exact _ _ (by omega) (by decide)]
  simp only [f32_to_short, truncZ]
  simp
  rw [if_pos (by omega)]
  exact toInt16_wrap s h1 h2

theorem apply_gain_two (s : Int) (h1 : -32768 ≤ s) (h2 : s ≤ 32767) :
    apply_gain (Gain.finite 1 1) s = toInt16 ((2 * s) % 65536).toNat := by
  unfold apply_gain
  simp only
  rw [f32round_exact _ _ (by omega) (by decide)]
  simp only [f32_to_short, truncZ]
  simp
  rw [if_pos (by omega)]
  rw [mul_comm]

theorem put16_toInt16 (lo hi : Byte) : put16 (toInt16 (lo.val + 256 * hi.val)) = [lo, hi] := by
  have hl := lo.isLt
  have hh := hi.isLt
  unfold put16 toInt16
  have key : ∀ v : Int, v % 65536 = ((lo.val + 256 * hi.val : Nat) : Int) →
      (v % 65536).toNat = lo.val + 256 * hi.val := by
    intro v hv; rw [hv]; exact Int.toNat_natCast _
  have hv : (if (lo.val + 256 * hi.val) % 65536 < 32768
      then (((lo.val + 256 * hi.val) % 65536 : Nat) : Int)
      else (((lo.val + 256 * hi.val) % 65536 : Nat) : Int) - 65536) % 65536
        = ((lo.val + 256 * hi.val : Nat) : Int) := by
    split <;> omega
  simp only [key _ hv]
  congr 1
  · apply Fin.ext; simp
  · congr 1; apply Fin.ext; simp; omega

theorem inner_loop_eq (gain : Gain) (buffer : List Byte) :
    ∀ (k p : Nat), inner_loop gain buffer k p = emit gain buffer p k := by
  intro k
  induction k with
  | zero => intro p; simp [inner_loop, emit]
  | succ k ih =>
    intro p
    simp only [inner_loop, ih, emit, List.range'_succ, List.flatMap_cons]

theorem emit_add (gain : Gain) (buffer : List Byte) (p a b : Nat) :
    emit gain buffer p (a + b) = emit gain buffer p a ++ emit gain buffer (p + a) b := by
  unfold emit
  rw [← List.flatMap_append]
  congr 1
  have := List.range'_append p a b 1
  simp only [one_mul] at this
  rw [this, Nat.add_comm]

theorem passes_step {c n i : Nat} (hc : 0 < c) (hi : i < n) :
    passes c (n - i) = passes c (n - (i + c)) + 1 := by
  unfold passes
  by_cases h : n - i ≤ c
  · have h0 : n - (i + c) = 0 := by omega
    rw [h0]
    have h1 : (0 + c - 1) / c = 0 := Nat.div_eq_of_lt (by omega)
    have h2 : (n - i + c - 1) / c = 1 := by
      have : n - i + c - 1 = (n - i - 1) + c := by omega
      rw [this, Nat.add_div_right _ hc, Nat.div_eq_of_lt (by omega)]
    rw [h1, h2]
  · have : n - i + c - 1 = (n - (i + c) + c - 1) + c := by omega
    rw [this, Nat.add_div_right _ hc]

theorem passes_zero {c n i : Nat} (hc : 0 < c) (hi : ¬ i < n) : passes c (n - i) = 0 := by
  unfold passes
  have h0 : n - i = 0 := by omega
  rw [h0]
  exact Nat.div_eq_of_lt (by omega)

theorem outer_loop_eq (gain : Gain) (buffer : List Byte) (c n : Nat) (hc : 0 < c) :
    ∀ (fuel i p : Nat), n - i < fuel →
      outer_loop gain buffer c n fuel i p
        = some (emit gain buffer p (passes c (n - i) * c)) := by
  intro fuel
  induction fuel with
  | zero => intro i p h; omega
  | succ f ih =>
    intro i p h
    unfold outer_loop
    by_cases hi : i < n
    · rw [if_pos hi, ih (i + c) (p + c) (by omega)]
      simp only [inner_loop_eq]
      have e : (passes c (n - (i + c)) + 1) * c = c + passes c (n - (i + c)) * c := by ring
      rw [passes_step hc hi, e, emit_add]
    · rw [if_neg hi, passes_zero hc hi]
      simp [emit]

theorem passes_mul {c j : Nat} (hc : 0 < c) : passes c (j * c) * c = j * c := by
  unfold passes
  have : j * c + c - 1 = (c - 1) + c * j := by rw [Nat.mul_comm]; omega
  rw [this, Nat.add_mul_div_left _ _ hc, Nat.div_eq_of_lt (by omega)]
  simp

theorem emit_eq_scale (gain : Gain) (buffer : List Byte) :
    ∀ (n p : Nat), 2 * p + 2 * n ≤ buffer.length →
      emit gain buffer p n = scale_samples gain ((buffer.drop (2 * p)).take (2 * n)) := by
  intro n
  induction n with
  | zero => intro p _; simp [emit, scale_samples]
  | succ n ih =>
    intro p h
    have e1 : emit gain buffer p (n + 1)
        = put16 (apply_gain gain (sample16 buffer p)) ++ emit gain buffer (p + 1) n := by
      simp only [emit, List.range'_succ, List.flatMap_cons]
    have h0 : 2 * p < buffer.length := by omega
    have h1 : 2 * p + 1 < buffer.length := by omega
    rw [e1, ih (p + 1) (by omega)]
    rw [List.drop_eq_getElem_cons h0, List.drop_eq_getElem_cons h1]
    have e2 : 2 * (n + 1) = (2 * n + 1) + 1 := by ring
    rw [e2, List.take_succ_cons, List.take_succ_cons]
    simp only [scale_samples]
    have e3 : 2 * (p + 1) = 2 * p + 1 + 1 := by ring
    rw [e3]
    simp only [sample16, le16, List.getD_eq_getElem _ _ h0, List.getD_eq_getElem _ _ h1]

theorem store_take (got mem : List Byte) : (store got mem).take got.length = got := by
  unfold store
  exact List.take_left _ _

theorem process_buffer_frames (gain : Gain) (c : Nat) (hc : 0 < c) (got mem : List Byte)
    (hf : got.length % (2 * c) = 0) :
    process_buffer gain 2 c (store got mem) got.length = some (scale_samples gain got) := by
  unfold process_buffer
  rw [if_pos rfl, outer_loop_eq gain _ c _ hc _ 0 0 (by omega)]
  obtain ⟨j, hj⟩ : ∃ j, got.length = 2 * c * j := ⟨got.length / (2 * c), by
    have := Nat.div_add_mod got.length (2 * c); omega⟩
  have hn : got.length / 2 = j * c := by
    rw [hj, Nat.mul_assoc, Nat.mul_div_cancel_left _ (by decide : 0 < 2), Nat.mul_comm]
  rw [Nat.sub_zero, hn, passes_mul hc]
  have hlen : 2 * 0 + 2 * (j * c) ≤ (store got mem).length := by
    unfold store
    rw [List.length_append]
    have : 2 * (j * c) = got.length := by rw [hj]; ring
    omega
  rw [emit_eq_scale gain _ _ 0 hlen]
  have : 2 * (j * c) = got.length := by rw [hj]; ring
  rw [this]
  simp [store_take]

theorem scale_samples_append (gain : Gain) :
    ∀ (n : Nat) (a b : List Byte), a.length = 2 * n →
      scale_samples gain (a ++ b) = scale_samples gain a ++ scale_samples gain b := by
  intro n
  induction n with
  | zero =>
    intro a b h
    have : a = [] := List.length_eq_zero.mp (by omega)
    subst this
    simp [scale_samples]
  | succ n ih =>
    intro a b h
    match a, h with
    | lo :: hi :: rest, h =>
      have hr : rest.length = 2 * n := by simp at h; omega
      have e : (lo :: hi :: rest) ++ b = lo :: hi :: (rest ++ b) := rfl
      rw [e]
      simp only [scale_samples, ih rest b hr, List.append_assoc]

theorem xfread_length (file : List Byte) (pos size nmemb : Nat) :
    (xfread file pos size nmemb).length = min (size * nmemb) (file.length - pos) := by
  unfold xfread
  rw [List.length_take, List.length_drop]

theorem xfread_append_drop (file : List Byte) (pos size nmemb : Nat) :
    xfread file pos size nmemb ++ file.drop (pos + (xfread file pos size nmemb).length)
      = file.drop pos := by
  unfold xfread
  rw [← List.drop_drop]
  have : (List.take (size * nmemb) (List.drop pos file)).length
      = min (size * nmemb) (List.drop pos file).length := List.length_take _ _
  rw [this]
  by_cases h : size * nmemb ≤ (List.drop pos file).length
  · rw [Nat.min_eq_left h, List.take_append_drop]
  · rw [Nat.min_eq_right (by omega), List.drop_length, List.append_nil,
      List.take_of_length_le (by omega)]

theorem sample_loop_frames (gain : Gain) (close : Nat → Bool) (file : List Byte) (c : Nat)
    (hc : 0 < c) (hclose : ∀ k, close k = false) :
    ∀ (fuel k pos : Nat) (buffer : List Byte),
      file.length - pos < fuel → (file.length - pos) % (2 * c) = 0 →
      sample_loop gain close file (c * 2 * 1024) 2 c fuel k pos buffer
        = some (scale_samples gain (file.drop pos)) := by
  intro fuel
  induction fuel with
  | zero => intro k pos buffer h; omega
  | succ f ih =>
    intro k pos buffer hfuel hfr
    unfold sample_loop
    simp only
    have hlen := xfread_length file pos 1 (c * 2 * 1024)
    have hcat := xfread_append_drop file pos 1 (c * 2 * 1024)
    generalize xfread file pos 1 (c * 2 * 1024) = got at hlen hcat
    by_cases h0 : 0 < got.length
    · have hgot : got.length % (2 * c) = 0 := by
        rw [hlen]
        by_cases hm : 1 * (c * 2 * 1024) ≤ file.length - pos
        · rw [Nat.min_eq_left hm]
          have : 1 * (c * 2 * 1024) = 2 * c * 1024 := by ring
          rw [this]; exact Nat.mul_mod_right _ _
        · rw [Nat.min_eq_right (by omega)]; exact hfr
      have hrest : (file.length - (pos + got.length)) % (2 * c) = 0 := by
        have hle : got.length ≤ file.length - pos := by rw [hlen]; exact Nat.min_le_right _ _
        obtain ⟨x, hx⟩ := Nat.dvd_of_mod_eq_zero hfr
        obtain ⟨y, hy⟩ := Nat.dvd_of_mod_eq_zero hgot
        have : file.length - (pos + got.length) = 2 * c * (x - y) := by
          rw [Nat.mul_sub, ← hx, ← hy]; omega
        rw [this]; exact Nat.mul_mod_right _ _
      rw [if_pos h0, process_buffer_frames gain c hc got buffer hgot]
      simp only [hclose k, true_and, if_pos h0]
      rw [ih (k + 1) (pos + got.length) _ (by omega) hrest]
      simp only
      obtain ⟨y, hy⟩ := Nat.dvd_of_mod_eq_zero hgot
      rw [← scale_samples_append gain (c * y) got _ (by rw [hy]; ring), hcat]
    · rw [if_neg h0]
      have hnil : got = [] := List.length_eq_zero.mp (by omega)
      rw [hnil] at hcat
      have hz : file.length - pos = 0 := by
        rw [hnil] at hlen
        simp only [List.length_nil] at hlen
        have : 0 < 1 * (c * 2 * 1024) := by omega
        omega
      have : file.drop pos = [] := List.drop_eq_nil_of_le (by omega)
      rw [this]
      simp [scale_samples]

theorem store_nil (mem : List Byte) : store [] mem = mem := by
  simp [store]

theorem id_fmt_ne_data : ID_FMT ≠ ID_DATA := by decide

theorem chunkWalk_pos_le (file : List Byte) :
    ∀ (fuel : Nat) (st r : Reader),
      (st.pos ≤ file.length ∨ chunk_id st.chunk_header ≠ ID_DATA) →
      chunkWalk file fuel st = some r → r.pos ≤ file.length := by
  intro fuel
  induction fuel with
  | zero => intro st r _ h; simp [chunkWalk] at h
  | succ f ih =>
    intro st r hinv h
    unfold chunkWalk at h
    simp only at h
    split at h
    · rename_i hfmt
      split at h
      · exact ih _ r (Or.inr (by simp only [hfmt]; exact id_fmt_ne_data)) h
      · exact ih _ r (Or.inr (by simp only [hfmt]; exact id_fmt_ne_data)) h
    · split at h
      · rename_i hdata
        simp only [Option.some.injEq] at h
        subst h
        simp only
        have hlen := xfread_length file st.pos 8 1
        by_cases hg : (xfread file st.pos 8 1).length = 0
        · have hnil : xfread file st.pos 8 1 = [] := List.length_eq_zero.mp hg
          rw [hnil, store_nil] at hdata
          rcases hinv with hp | hp
          · omega
          · exact absurd hdata hp
        · omega
      · rename_i hdata
        exact ih _ r (Or.inr hdata) h

theorem header_copy (file : List Byte) (p : Nat) (hp : p ≤ file.length) :
    (store (xfread file 0 p 1) (List.replicate 100 0)).take p = file.take p := by
  have hl : (xfread file 0 p 1).length = p := by
    rw [xfread_length]; omega
  have hx : xfread file 0 p 1 = file.take p := by
    simp [xfread]
  have := store_take (xfread file 0 p 1) (List.replicate 100 0)
  rw [hl] at this
  rw [this, hx]

theorem bytes_per_sample_16 {fmt : List Byte} (h : bits_per_sample fmt = 16) :
    bytes_per_sample fmt = 2 := by
  simp [bytes_per_sample, h]

theorem after_walk_16 (env : Env) (gain : Gain) (file : List Byte) (st : Reader)
    (hbits : bits_per_sample st.chunk_fmt = 16) (hc : 0 < num_channels st.chunk_fmt)
    (hmalloc : env.malloc_null (buffer_size st.chunk_fmt) = false)
    (hclose : ∀ k, env.close k = false)
    (hframes : (file.length - st.pos) % (2 * num_channels st.chunk_fmt) = 0)
    (hp : st.pos ≤ file.length) (h100 : st.pos ≤ 100) :
    after_walk env gain file st
      = some (Outcome.exit 0 (file.take st.pos ++ scale_samples gain (file.drop st.pos))) := by
  unfold after_walk
  simp only [hmalloc, Bool.false_eq_true, if_false]
  rw [if_neg (by omega)]
  have hl : (xfread file 0 st.pos 1).length = st.pos := by
    rw [xfread_length]; omega
  rw [hl, header_copy file st.pos hp]
  simp only [buffer_size, bytes_per_sample_16 hbits]
  rw [sample_loop_frames gain env.close file _ hc hclose _ 0 st.pos env.buffer (by omega) hframes]

theorem main_of_accepts {fuel : Nat} {env : Env} {file : List Byte} {st : Reader}
    (gain : Gain) (h : accepts fuel env file st) :
    main fuel env gain file = after_walk env gain file st := by
  obtain ⟨h1, h2, h3⟩ := h
  unfold main
  simp only [h1, h2, h3, ne_eq, not_true_eq_false, or_self, if_false]

theorem accepts_pos_le {fuel : Nat} {env : Env} {file : List Byte} {st : Reader}
    (h : accepts fuel env file st) : st.pos ≤ file.length := by
  obtain ⟨_, _, h3⟩ := h
  refine chunkWalk_pos_le file fuel _ st (Or.inl ?_) h3
  simp only [xfread_length]
  omega

theorem scale_samples_one :
    ∀ (n : Nat) (l : List Byte), l.length = 2 * n → scale_samples (Gain.finite 1 0) l = l := by
  intro n
  induction n with
  | zero =>
    intro l h
    have : l = [] := List.length_eq_zero.mp (by omega)
    subst this
    simp [scale_samples]
  | succ n ih =>
    intro l h
    match l, h with
    | lo :: hi :: rest, h =>
      have hr : rest.length = 2 * n := by simp at h; omega
      have hrange := toInt16_range (lo.val + 256 * hi.val)
      simp only [scale_samples, ih rest hr, apply_gain_one _ hrange.1 hrange.2, put16_toInt16]
      rfl

theorem even_of_frames {x c : Nat} (h : x % (2 * c) = 0) : ∃ n, x = 2 * n := by
  obtain ⟨y, hy⟩ := Nat.dvd_of_mod_eq_zero h
  exact ⟨c * y, by rw [hy]; ring⟩

theorem scale_samples_congr (g1 g2 : Gain) (h : ∀ s, apply_gain g1 s = apply_gain g2 s) :
    ∀ (n : Nat) (l : List Byte), l.length ≤ n → scale_samples g1 l = scale_samples g2 l := by
  intro n
  induction n with
  | zero =>
    intro l hl
    have : l = [] := List.length_eq_zero.mp (by omega)
    subst this
    rfl
  | succ n ih =>
    intro l hl
    match l with
    | [] => rfl
    | [_] => rfl
    | lo :: hi :: rest =>
      have hr : rest.length ≤ n := by simp at hl; omega
      simp only [scale_samples, h, ih rest hr]

/-- Whole frames at gain 1.0: for an accepted 16-bit mono or stereo input whose bytes
after the data chunk header form whole frames, and gain 1.0 (in any dyadic form `2 ^ k * 2 ^ (-k)`), the sample
loop writes exactly the input bytes that follow the data chunk header; when the header
bytes fit `headers_buffer` the whole output is the header bytes followed by those bytes,
and the exit status is 0. -/
theorem gain_one_identity (fuel : Nat) (env : Env) (file : List Byte) (st : Reader) (k : Nat)
    (hacc : accepts fuel env file st)
    (hbits : bits_per_sample st.chunk_fmt = 16)
    (hch : num_channels st.chunk_fmt = 1 ∨ num_channels st.chunk_fmt = 2)
    (hframes : (file.length - st.pos) % (2 * num_channels st.chunk_fmt) = 0)
    (hmalloc : env.malloc_null (buffer_size st.chunk_fmt) = false)
    (hclose : ∀ j, env.close j = false) :
    sample_loop (Gain.finite (2 ^ k) (-(k : Int))) env.close file (buffer_size st.chunk_fmt)
        (bytes_per_sample st.chunk_fmt) (num_channels st.chunk_fmt) (file.length + 1) 0 st.pos
        env.buffer = some (file.drop st.pos)
    ∧ (st.pos ≤ 100 →
        main fuel env (Gain.finite (2 ^ k) (-(k : Int))) file
          = some (Outcome.exit 0 (file.take st.pos ++ file.drop st.pos))) := by
  have hc : 0 < num_channels st.chunk_fmt := by omega
  obtain ⟨n, hn⟩ := even_of_frames hframes
  have hid : scale_samples (Gain.finite (2 ^ k) (-(k : Int))) (file.drop st.pos)
      = file.drop st.pos := by
    rw [scale_samples_congr _ _ (apply_gain_one_any k) _ _ (Nat.le_refl _)]
    exact scale_samples_one n _ (by rw [List.length_drop]; exact hn)
  constructor
  · simp only [buffer_size, bytes_per_sample_16 hbits]
    rw [sample_loop_frames _ env.close file _ hc hclose _ 0 st.pos env.buffer (by omega) hframes,
      hid]
  · intro h100
    rw [main_of_accepts _ hacc,
      after_walk_16 env _ file st hbits hc hmalloc hclose hframes (accepts_pos_le hacc) h100, hid]

theorem gain_one_identity_witness :
    accepts 2 zero_env (wav44 2 16 (bytes16 1000 ++ bytes16 65000)) (wav44_reader 2 16 4)
    ∧ main 2 zero_env (Gain.finite (2 ^ 0) (-((0 : Nat) : Int)))
        (wav44 2 16 (bytes16 1000 ++ bytes16 65000))
        = some (Outcome.exit 0 (wav44 2 16 (bytes16 1000 ++ bytes16 65000))) :=
  ⟨by decide,
   by
    have h := (gain_one_identity 2 zero_env (wav44 2 16 (bytes16 1000 ++ bytes16 65000))
      (wav44_reader 2 16 4) 0 (by decide) (by decide) (by decide) (by decide) rfl
      (fun _ => rfl)).2 (by decide)
    rw [List.take_append_drop] at h
    exact h⟩

theorem apply_gain_zero_any (e s : Int) : apply_gain (Gain.finite 0 e) s = 0 := by
  have hb : bits 0 = 0 := by decide
  have h1 : (f32round (s * 0) e).1 = 0 := by
    unfold f32round
    simp only [mul_zero, Int.natAbs_zero, hb]
    split <;> simp
  have h2 : ∀ x : Int, f32_to_short 0 x = 0 := by
    intro x
    unfold f32_to_short truncZ
    have : (if 0 ≤ x then (0 : Int) * 2 ^ x.toNat else Int.tdiv 0 (2 ^ (-x).toNat)) = 0 := by
      split <;> simp
    simp only [this]
    decide
  unfold apply_gain
  simp only [h1, h2]

theorem scale_samples_zero (e : Int) :
    ∀ (n : Nat) (l : List Byte), l.length = 2 * n →
      scale_samples (Gain.finite 0 e) l = List.replicate l.length 0 := by
  intro n
  induction n with
  | zero =>
    intro l h
    have : l = [] := List.length_eq_zero.mp (by omega)
    subst this
    simp [scale_samples]
  | succ n ih =>
    intro l h
    match l, h with
    | lo :: hi :: rest, h =>
      have hr : rest.length = 2 * n := by simp at h; omega
      simp only [scale_samples, ih rest hr, apply_gain_zero_any, List.length_cons,
        List.replicate_succ]
      rfl

/-- Whole frames at gain 0.0: for an accepted 16-bit input with at least one channel whose
bytes after the data chunk header form whole frames, and gain 0.0 (any dyadic form of zero), the sample
loop writes one zero byte for every input byte after the data chunk header, so every
sample written is 0 and as many samples are written as were read; when the header bytes
fit `headers_buffer` the output is the header bytes followed by those zeros. -/
theorem gain_zero_silence (fuel : Nat) (env : Env) (file : List Byte) (st : Reader) (e : Int)
    (hacc : accepts fuel env file st)
    (hbits : bits_per_sample st.chunk_fmt = 16)
    (hch : 0 < num_channels st.chunk_fmt)
    (hframes : (file.length - st.pos) % (2 * num_channels st.chunk_fmt) = 0)
    (hmalloc : env.malloc_null (buffer_size st.chunk_fmt) = false)
    (hclose : ∀ k, env.close k = false) :
    sample_loop (Gain.finite 0 e) env.close file (buffer_size st.chunk_fmt)
        (bytes_per_sample st.chunk_fmt) (num_channels st.chunk_fmt) (file.length + 1) 0 st.pos
        env.buffer = some (List.replicate (file.length - st.pos) 0)
    ∧ (st.pos ≤ 100 →
        main fuel env (Gain.finite 0 e) file
          = some (Outcome.exit 0 (file.take st.pos ++ List.replicate (file.length - st.pos) 0))) := by
  obtain ⟨n, hn⟩ := even_of_frames hframes
  have hz : scale_samples (Gain.finite 0 e) (file.drop st.pos)
      = List.replicate (file.length - st.pos) 0 := by
    rw [scale_samples_zero e n _ (by rw [List.length_drop]; exact hn), List.length_drop]
  constructor
  · simp only [buffer_size, bytes_per_sample_16 hbits]
    rw [sample_loop_frames _ env.close file _ hch hclose _ 0 st.pos env.buffer (by omega) hframes,
      hz]
  · intro h100
    rw [main_of_accepts _ hacc,
      after_walk_16 env _ file st hbits hch hmalloc hclose hframes (accepts_pos_le hacc) h100, hz]

theorem gain_zero_silence_witness :
    accepts 2 zero_env (wav44 1 16 (bytes16 1000 ++ bytes16 65000)) (wav44_reader 1 16 4)
    ∧ main 2 zero_env (Gain.finite 0 0) (wav44 1 16 (bytes16 1000 ++ bytes16 65000))
        = some (Outcome.exit 0 (wav44 1 16 [0, 0, 0, 0])) :=
  ⟨by decide,
   ((gain_zero_silence 2 zero_env (wav44 1 16 (bytes16 1000 ++ bytes16 65000))
      (wav44_reader 1 16 4) 0 (by decide) (by decide) (by decide) (by decide) rfl
      (fun _ => rfl)).2 (by decide)).trans (by decide)⟩

theorem apply_gain_two_wrap (k : Nat) (s : Int) (h1 : -32768 ≤ s) (h2 : s ≤ 32767) :
    apply_gain (Gain.finite (2 ^ k) (1 - (k : Int))) s = (2 * s + 32768) % 65536 - 32768 := by
  rw [apply_gain_two_any, apply_gain_two s h1 h2]
  unfold toInt16
  have h3 : (((2 * s) % 65536).toNat : Int) = (2 * s) % 65536 :=
    Int.toNat_of_nonneg (Int.emod_nonneg _ (by decide))
  split <;> omega

theorem put16_bytes (v w : Int) (h : v % 65536 = w % 65536) :
    (put16 v).map Fin.val = [(w % 65536).toNat % 256, (w % 65536).toNat / 256] := by
  have hw : (w % 65536).toNat < 65536 := by
    have h0 : 0 ≤ w % 65536 := Int.emod_nonneg _ (by decide)
    have h1 : w % 65536 < 65536 := Int.emod_lt_of_pos _ (by decide)
    omega
  unfold put16
  simp only [List.map_cons, List.map_nil, h]
  rw [Nat.mod_eq_of_lt (show (w % 65536).toNat / 256 < 256 by omega)]

theorem sample16_cons_cons (a b : Byte) (l : List Byte) (k : Nat) :
    sample16 (a :: b :: l) (k + 1) = sample16 l k := by
  unfold sample16 le16
  have e1 : 2 * (k + 1) = (2 * k + 1) + 1 := by ring
  have e2 : 2 * (k + 1) + 1 = ((2 * k + 1) + 1) + 1 := by ring
  rw [e2, e1]
  simp only [List.getD_cons_succ]

theorem sample16_put16 (v : Int) (h1 : -32768 ≤ v) (h2 : v ≤ 32767) (l : List Byte) :
    sample16 (put16 v ++ l) 0 = v := by
  unfold sample16 le16 put16
  simp only [Nat.mul_zero, List.cons_append, List.nil_append, List.getD_cons_zero, zero_add,
    List.getD_cons_succ]
  have h3 : ((v % 65536).toNat : Int) = v % 65536 :=
    Int.toNat_of_nonneg (Int.emod_nonneg _ (by decide))
  have h4 : (v % 65536).toNat < 65536 := by
    have := Int.emod_lt_of_pos v (show (0 : Int) < 65536 by decide); omega
  have h5 : (v % 65536).toNat % 256 + 256 * ((v % 65536).toNat / 256 % 256) = (v % 65536).toNat := by
    omega
  rw [h5]
  exact toInt16_wrap v h1 h2

theorem scale_samples_get (gain : Gain) :
    ∀ (k : Nat) (l : List Byte), 2 * k + 1 < l.length →
      sample16 (scale_samples gain l) k = apply_gain gain (sample16 l k) := by
  intro k
  induction k with
  | zero =>
    intro l h
    match l, h with
    | lo :: hi :: rest, _ =>
      have hr := apply_gain_range gain (toInt16 (lo.val + 256 * hi.val))
      simp only [scale_samples]
      rw [sample16_put16 _ hr.1 hr.2]
      simp [sample16, le16]
  | succ k ih =>
    intro l h
    match l, h with
    | lo :: hi :: rest, h =>
      have hr : 2 * k + 1 < rest.length := by simp at h; omega
      simp only [scale_samples]
      have hp : put16 (apply_gain gain (toInt16 (lo.val + 256 * hi.val)))
          ++ scale_samples gain rest
          = (put16 (apply_gain gain (toInt16 (lo.val + 256 * hi.val)))).get ⟨0, by simp [put16]⟩
            :: (put16 (apply_gain gain (toInt16 (lo.val + 256 * hi.val)))).get ⟨1, by simp [put16]⟩
            :: scale_samples gain rest := by
        simp [put16]
      rw [hp, sample16_cons_cons, sample16_cons_cons, ih rest hr]

theorem xfread_eof (file : List Byte) (pos size nmemb : Nat) (h : file.length ≤ pos) :
    xfread file pos size nmemb = [] := by
  unfold xfread
  rw [List.drop_eq_nil_of_le h, List.take_nil]

theorem chunkWalk_eof (file : List Byte) :
    ∀ (fuel : Nat) (st : Reader), file.length ≤ st.pos → chunk_id st.chunk_header ≠ ID_DATA →
      chunkWalk file fuel st = none := by
  intro fuel
  induction fuel with
  | zero => intro st _ _; rfl
  | succ f ih =>
    intro st hpos hid
    unfold chunkWalk
    simp only [xfread_eof file st.pos 8 1 hpos, store_nil, List.length_nil, Nat.add_zero]
    by_cases hfmt : chunk_id st.chunk_header = ID_FMT
    · rw [if_pos hfmt]
      by_cases hsz : 16 < chunk_sz st.chunk_header
      · rw [if_pos hsz]
        exact ih _ (by simp only; omega) (by simp only; exact hid)
      · rw [if_neg hsz]
        exact ih _ (by simp only; omega) (by simp only; exact hid)
    · rw [if_neg hfmt, if_neg hid]
      exact ih _ (by simp only; omega) (by simp only; exact hid)

theorem le32_store (got mem : List Byte) (i : Nat) (h : i + 4 ≤ got.length) :
    le32 (store got mem) i = le32 got i := by
  unfold le32 store
  rw [List.getD_append _ _ _ _ (by omega), List.getD_append _ _ _ _ (by omega),
    List.getD_append _ _ _ _ (by omega), List.getD_append _ _ _ _ (by omega)]

theorem getD_xfread (file : List Byte) (pos n i : Nat) (h : i < n) :
    (xfread file pos n 1).getD i 0 = file.getD (pos + i) 0 := by
  unfold xfread
  simp only [List.getD_eq_getElem?_getD, Nat.mul_one, List.getElem?_take, if_pos h,
    List.getElem?_drop]

theorem le32_xfread (file : List Byte) (pos n i : Nat) (h : i + 4 ≤ n) :
    le32 (xfread file pos n 1) i = le32 file (pos + i) := by
  unfold le32
  rw [getD_xfread _ _ _ _ (by omega), getD_xfread _ _ _ _ (by omega),
    getD_xfread _ _ _ _ (by omega), getD_xfread _ _ _ _ (by omega)]
  simp only [Nat.add_assoc]

theorem le16_xfread (file : List Byte) (pos n i : Nat) (h : i + 2 ≤ n) :
    le16 (xfread file pos n 1) i = le16 file (pos + i) := by
  unfold le16
  rw [getD_xfread _ _ _ _ (by omega), getD_xfread _ _ _ _ (by omega)]
  simp only [Nat.add_assoc]

theorem xfread_full (file : List Byte) (pos n : Nat) (h : pos + n ≤ file.length) :
    (xfread file pos n 1).length = n := by
  rw [xfread_length]; omega

theorem main_magic_bad (fuel : Nat) (env : Env) (gain : Gain) (file : List Byte)
    (h : (4 ≤ file.length ∧ le32 file 0 ≠ ID_RIFF) ∨ (12 ≤ file.length ∧ le32 file 8 ≠ ID_WAVE)) :
    main fuel env gain file = some (Outcome.exit 1 []) := by
  have hlen := xfread_length file 0 12 1
  unfold main
  simp only
  rw [if_pos]
  rcases h with ⟨h4, hne⟩ | ⟨h12, hne⟩
  · left
    unfold riff_id
    rw [le32_store _ _ 0 (by omega), le32_xfread _ _ _ _ (by omega)]
    exact hne
  · right
    unfold wave_id
    rw [le32_store _ _ 8 (by omega), le32_xfread _ _ _ _ (by omega)]
    exact hne

theorem main_magic_ok (fuel : Nat) (env : Env) (gain : Gain) (file : List Byte)
    (h12 : 12 ≤ file.length) (h1 : le32 file 0 = ID_RIFF) (h2 : le32 file 8 = ID_WAVE) :
    main fuel env gain file
      = match chunkWalk file fuel (Reader.mk 12 env.chunk_header env.chunk_fmt) with
        | none => none
        | some st => after_walk env gain file st := by
  have hlen := xfread_length file 0 12 1
  unfold main
  simp only
  have e1 : riff_id (store (xfread file 0 12 1) env.riff_wave_header) = ID_RIFF := by
    unfold riff_id
    rw [le32_store _ _ 0 (by omega), le32_xfread _ _ _ _ (by omega)]
    exact h1
  have e2 : wave_id (store (xfread file 0 12 1) env.riff_wave_header) = ID_WAVE := by
    unfold wave_id
    rw [le32_store _ _ 8 (by omega), le32_xfread _ _ _ _ (by omega)]
    exact h2
  have e3 : (xfread file 0 12 1).length = 12 := xfread_full file 0 12 (by omega)
  rw [if_neg (by simp [e1, e2]), e3]

/-- C8: an input whose bytes 0-3 are present and are not "RIFF", or whose bytes 8-11 are
present and are not "WAVE", makes the program exit with status 1 with nothing written to
the output, for every environment and gain; an input of at least 12 bytes that carries
both constants passes the check, and the run goes on with the chunk walk at offset 12. -/
theorem bad_magic_rejected (fuel : Nat) (env : Env) (gain : Gain) (file : List Byte) :
    ((4 ≤ file.length ∧ le32 file 0 ≠ ID_RIFF) ∨ (12 ≤ file.length ∧ le32 file 8 ≠ ID_WAVE) →
      main fuel env gain file = some (Outcome.exit 1 []))
    ∧ (12 ≤ file.length → le32 file 0 = ID_RIFF → le32 file 8 = ID_WAVE →
        main fuel env gain file
          = match chunkWalk file fuel (Reader.mk 12 env.chunk_header env.chunk_fmt) with
            | none => none
            | some st => after_walk env gain file st) :=
  ⟨main_magic_bad fuel env gain file, main_magic_ok fuel env gain file⟩

theorem bad_magic_rejected_witness :
    (4 ≤ swapped_magic.length ∧ le32 swapped_magic 0 ≠ ID_RIFF)
    ∧ main 5 zero_env (Gain.finite 1 0) swapped_magic = some (Outcome.exit 1 []) :=
  ⟨by decide,
   (bad_magic_rejected 5 zero_env (Gain.finite 1 0) swapped_magic).1 (Or.inl (by decide))⟩

theorem sample_loop_no_buffer (gain : Gain) (close : Nat → Bool) (file : List Byte)
    (bps c fuel k pos : Nat) (buffer : List Byte) :
    sample_loop gain close file 0 bps c (fuel + 1) k pos buffer = some [] := by
  unfold sample_loop
  simp [xfread]

theorem bytes_per_sample_other {fmt : List Byte} (h16 : bits_per_sample fmt ≠ 16)
    (h32 : bits_per_sample fmt ≠ 32) : bytes_per_sample fmt = 0 := by
  simp [bytes_per_sample, h16, h32]

/-- C9 as stated fails: a canonical file that declares 8 bits per sample is not
rejected; the run copies the 44 header bytes, writes no sample and exits with status 0. -/
theorem depth_8_exits_zero :
    bits_per_sample (wav44_reader 1 8 2).chunk_fmt = 8
    ∧ accepts 2 zero_env (wav44 1 8 [1, 2]) (wav44_reader 1 8 2)
    ∧ main 2 zero_env (Gain.finite 1 0) (wav44 1 8 [1, 2])
        = some (Outcome.exit 0 ((wav44 1 8 [1, 2]).take 44)) := by
  decide

/-- C9, amended: for an accepted input whose format chunk declares a bit depth other
than 16 or 32 the transform stage has `bytes_per_sample = 0` and a buffer of 0 bytes and
writes no sample, and no unsupported-format error exists: if `malloc(0)` returns null the
program exits with status 1 and an empty output, otherwise (header bytes fitting
`headers_buffer`) it writes the header bytes alone and exits with status 0. -/
theorem unsupported_depth_exit (fuel : Nat) (env : Env) (gain : Gain) (file : List Byte)
    (st : Reader) (hacc : accepts fuel env file st)
    (h16 : bits_per_sample st.chunk_fmt ≠ 16) (h32 : bits_per_sample st.chunk_fmt ≠ 32) :
    bytes_per_sample st.chunk_fmt = 0 ∧ buffer_size st.chunk_fmt = 0
    ∧ (env.malloc_null 0 = true → main fuel env gain file = some (Outcome.exit 1 []))
    ∧ (env.malloc_null 0 = false → st.pos ≤ 100 →
        main fuel env gain file = some (Outcome.exit 0 (file.take st.pos))) := by
  have hb := bytes_per_sample_other h16 h32
  have hs : buffer_size st.chunk_fmt = 0 := by simp [buffer_size, hb]
  refine ⟨hb, hs, ?_, ?_⟩
  · intro hm
    rw [main_of_accepts _ hacc]
    unfold after_walk
    simp only [hs, hm, if_true]
  · intro hm h100
    rw [main_of_accepts _ hacc]
    unfold after_walk
    simp only [hs, hm, Bool.false_eq_true, if_false]
    rw [if_neg (by omega), sample_loop_no_buffer]
    simp only [List.append_nil]
    exact congrArg (fun l => some (Outcome.exit 0 l)) (header_copy file st.pos (accepts_pos_le hacc))

theorem unsupported_depth_exit_witness :
    accepts 2 zero_env (wav44 1 8 [1, 2]) (wav44_reader 1 8 2)
    ∧ bytes_per_sample (wav44_reader 1 8 2).chunk_fmt = 0 :=
  ⟨by decide,
   (unsupported_depth_exit 2 zero_env (Gain.finite 1 0) (wav44 1 8 [1, 2]) (wav44_reader 1 8 2)
      (by decide) (by decide) (by decide)).1⟩

/-- C10, the code at a failing input: on a file with a valid container header that ends
after an empty "LIST" chunk the walk never stops, whatever the environment and the gain:
the read at end of file leaves the last chunk header in place, and the same header is
acted on again in every pass. -/
theorem walk_loops_at_eof (fuel : Nat) (env : Env) (gain : Gain) :
    main fuel env gain no_data_chunk = none := by
  have hpass := main_magic_ok fuel env gain no_data_chunk (by decide) (by decide) (by decide)
  rw [hpass]
  cases fuel with
  | zero => rfl
  | succ f =>
    have hstep : chunkWalk no_data_chunk (f + 1) (Reader.mk 12 env.chunk_header env.chunk_fmt)
        = chunkWalk no_data_chunk f
            (Reader.mk 20 (store (bytes32 ID_LIST ++ bytes32 0) env.chunk_header) env.chunk_fmt) := by
      have hx : xfread no_data_chunk 12 8 1 = bytes32 ID_LIST ++ bytes32 0 := by decide
      have h1 : chunk_id (store (bytes32 ID_LIST ++ bytes32 0) env.chunk_header) = ID_LIST := by
        unfold chunk_id
        rw [le32_store _ _ 0 (by decide)]
        decide
      have h2 : chunk_sz (store (bytes32 ID_LIST ++ bytes32 0) env.chunk_header) = 0 := by
        unfold chunk_sz
        rw [le32_store _ _ 4 (by decide)]
        decide
      rw [chunkWalk]
      simp only [hx, h1, h2]
      rw [if_neg (by decide), if_neg (by decide)]
      rfl
    have hlen : no_data_chunk.length ≤ 20 := by decide
    rw [hstep, chunkWalk_eof no_data_chunk f _ hlen (by
      unfold chunk_id
      rw [le32_store _ _ 0 (by decide)]
      decide)]

theorem process_buffer_some (gain : Gain) (bps c : Nat) (hc : 0 < c) (buffer : List Byte)
    (n : Nat) : ∃ w, process_buffer gain bps c buffer n = some w := by
  unfold process_buffer
  by_cases h : bps = 2
  · subst h
    rw [if_pos rfl, outer_loop_eq gain buffer c _ hc _ 0 0 (by omega)]
    exact ⟨_, rfl⟩
  · rw [if_neg h]
    exact ⟨_, rfl⟩

theorem sample_loop_some (gain : Gain) (close : Nat → Bool) (file : List Byte) (bps c : Nat) :
    ∀ (fuel k pos : Nat) (buffer : List Byte), file.length - pos < fuel →
      ∃ w, sample_loop gain close file (c * bps * 1024) bps c fuel k pos buffer = some w := by
  intro fuel
  induction fuel with
  | zero => intro k pos buffer h; omega
  | succ f ih =>
    intro k pos buffer hfuel
    unfold sample_loop
    simp only
    have hlen := xfread_length file pos 1 (c * bps * 1024)
    generalize xfread file pos 1 (c * bps * 1024) = got at hlen
    by_cases h0 : 0 < got.length
    · have hc : 0 < c := by
        rcases Nat.eq_zero_or_pos c with hz | hz
        · rw [hz] at hlen
          simp only [Nat.zero_mul, Nat.mul_zero, Nat.zero_min] at hlen
          omega
        · exact hz
      obtain ⟨w, hw⟩ := process_buffer_some gain bps c hc (store got buffer) got.length
      rw [if_pos h0, hw]
      simp only
      by_cases hk : close k = false ∧ 0 < got.length
      · rw [if_pos hk]
        have hle : got.length ≤ file.length - pos := by rw [hlen]; exact Nat.min_le_right _ _
        obtain ⟨r, hr⟩ := ih (k + 1) (pos + got.length) (store got buffer) (by omega)
        rw [hr]
        exact ⟨_, rfl⟩
      · rw [if_neg hk]
        exact ⟨_, rfl⟩
    · rw [if_neg h0]
      exact ⟨_, rfl⟩

theorem after_walk_total (env : Env) (gain : Gain) (file : List Byte) (st : Reader) :
    ∃ o, after_walk env gain file st = some o := by
  unfold after_walk
  simp only
  split
  · exact ⟨_, rfl⟩
  · split
    · exact ⟨_, rfl⟩
    · obtain ⟨w, hw⟩ := sample_loop_some gain env.close file (bytes_per_sample st.chunk_fmt)
        (num_channels st.chunk_fmt) (file.length + 1) 0 (xfread file 0 st.pos 1).length
        env.buffer (by omega)
      unfold buffer_size
      rw [hw]
      exact ⟨_, rfl⟩

theorem header_copied (fuel : Nat) (env : Env) (gain : Gain) (file : List Byte) (st : Reader)
    (hacc : accepts fuel env file st)
    (hmalloc : env.malloc_null (buffer_size st.chunk_fmt) = false) (h100 : st.pos ≤ 100) :
    ∃ w, main fuel env gain file = some (Outcome.exit 0 (file.take st.pos ++ w)) := by
  rw [main_of_accepts _ hacc]
  unfold after_walk
  simp only [hmalloc, Bool.false_eq_true, if_false]
  rw [if_neg (by omega)]
  obtain ⟨w, hw⟩ := sample_loop_some gain env.close file (bytes_per_sample st.chunk_fmt)
    (num_channels st.chunk_fmt) (file.length + 1) 0 (xfread file 0 st.pos 1).length env.buffer
    (by omega)
  unfold buffer_size
  rw [hw]
  simp only
  rw [header_copy file st.pos (accepts_pos_le hacc)]
  exact ⟨w, rfl⟩

theorem long_header_undefined (env : Env) (gain : Gain) (file : List Byte) (st : Reader)
    (fuel : Nat) (hacc : accepts fuel env file st)
    (hmalloc : env.malloc_null (buffer_size st.chunk_fmt) = false) (h100 : 100 < st.pos) :
    main fuel env gain file = some Outcome.undefined_behaviour := by
  rw [main_of_accepts _ hacc]
  unfold after_walk
  simp only [hmalloc, Bool.false_eq_true, if_false]
  rw [if_pos h100]

/-- C2, the code at a failing input: a file whose data payload starts at offset 102 (a
50-byte "LIST" chunk before the data chunk) is accepted by the chunk reader, and the
header copy then reads 102 bytes into the 100-byte `headers_buffer`: undefined
behaviour.  With a 48-byte chunk (offset 100) the same run copies the header intact. -/
theorem header_102_overflows :
    accepts 3 zero_env (wav_list 1 16 (List.replicate 50 7) (bytes16 5)) (reader_at 102 1 16 2)
    ∧ main 3 zero_env (Gain.finite 1 0) (wav_list 1 16 (List.replicate 50 7) (bytes16 5))
        = some Outcome.undefined_behaviour
    ∧ main 3 zero_env (Gain.finite 1 0) (wav_list 1 16 (List.replicate 48 7) (bytes16 5))
        = some (Outcome.exit 0 (wav_list 1 16 (List.replicate 48 7) (bytes16 5))) := by
  decide

theorem chunk_id_read (file : List Byte) (pos : Nat) (mem : List Byte)
    (h : pos + 8 ≤ file.length) :
    chunk_id (store (xfread file pos 8 1) mem) = le32 file pos := by
  unfold chunk_id
  rw [le32_store _ _ 0 (by rw [xfread_full file pos 8 h]; omega), le32_xfread _ _ _ _ (by omega)]
  rfl

theorem chunk_sz_read (file : List Byte) (pos : Nat) (mem : List Byte)
    (h : pos + 8 ≤ file.length) :
    chunk_sz (store (xfread file pos 8 1) mem) = le32 file (pos + 4) := by
  unfold chunk_sz
  rw [le32_store _ _ 4 (by rw [xfread_full file pos 8 h]), le32_xfread _ _ _ _ (by omega)]

theorem chunkWalk_unknown_step (file : List Byte) (fuel : Nat) (st : Reader)
    (h : st.pos + 8 ≤ file.length) (hf : le32 file st.pos ≠ ID_FMT)
    (hd : le32 file st.pos ≠ ID_DATA) :
    chunkWalk file (fuel + 1) st
      = chunkWalk file fuel (Reader.mk (st.pos + 8 + le32 file (st.pos + 4))
          (store (xfread file st.pos 8 1) st.chunk_header) st.chunk_fmt) := by
  rw [chunkWalk]
  simp only [chunk_id_read file st.pos _ h, chunk_sz_read file st.pos _ h,
    xfread_full file st.pos 8 h]
  rw [if_neg hf, if_neg hd]

theorem chunkWalk_data_step (file : List Byte) (fuel : Nat) (st : Reader)
    (h : st.pos + 8 ≤ file.length) (hd : le32 file st.pos = ID_DATA) :
    chunkWalk file (fuel + 1) st
      = some (Reader.mk (st.pos + 8) (store (xfread file st.pos 8 1) st.chunk_header)
          st.chunk_fmt) := by
  rw [chunkWalk]
  simp only [chunk_id_read file st.pos _ h, xfread_full file st.pos 8 h]
  rw [if_neg (by rw [hd]; decide), if_pos hd]

theorem chunkWalk_fmt_step (file : List Byte) (fuel : Nat) (st : Reader)
    (h : st.pos + 24 ≤ file.length) (hf : le32 file st.pos = ID_FMT)
    (hsz : 16 < le32 file (st.pos + 4)) :
    chunkWalk file (fuel + 1) st
      = chunkWalk file fuel (Reader.mk (st.pos + 8 + 16 + (le32 file (st.pos + 4) - 16))
          (store (xfread file st.pos 8 1) st.chunk_header)
          (store (xfread file (st.pos + 8) 16 1) st.chunk_fmt)) := by
  rw [chunkWalk]
  simp only [chunk_id_read file st.pos _ (show st.pos + 8 ≤ file.length by omega),
    chunk_sz_read file st.pos _ (show st.pos + 8 ≤ file.length by omega),
    xfread_full file st.pos 8 (show st.pos + 8 ≤ file.length by omega),
    xfread_full file (st.pos + 8) 16 (show st.pos + 8 + 16 ≤ file.length by omega)]
  rw [if_pos hf, if_pos hsz]

theorem unknown_chunk_skipped (file : List Byte) (fuel : Nat) (st : Reader)
    (h1 : st.pos + 8 ≤ file.length) (hf : le32 file st.pos ≠ ID_FMT)
    (hd : le32 file st.pos ≠ ID_DATA)
    (h2 : st.pos + 8 + le32 file (st.pos + 4) + 8 ≤ file.length)
    (hdata : le32 file (st.pos + 8 + le32 file (st.pos + 4)) = ID_DATA) :
    ∃ r, chunkWalk file (fuel + 2) st = some r
      ∧ r.pos = st.pos + 8 + le32 file (st.pos + 4) + 8 ∧ r.chunk_fmt = st.chunk_fmt := by
  rw [chunkWalk_unknown_step file (fuel + 1) st h1 hf hd,
    chunkWalk_data_step file fuel _ h2 hdata]
  exact ⟨_, rfl, rfl, rfl⟩

/-- C6, the code at a failing input: with a 100-byte "LIST" chunk between the format
chunk and the data chunk the walk skips the chunk and stops right after the data chunk
header, at offset 152, but the chunk is not copied to the output: the header copy reads
152 bytes into the 100-byte `headers_buffer`, which is undefined behaviour. -/
theorem list_chunk_100_overflows :
    accepts 3 zero_env (wav_list 1 16 (List.replicate 100 7) (bytes16 5)) (reader_at 152 1 16 2)
    ∧ main 3 zero_env (Gain.finite 1 0) (wav_list 1 16 (List.replicate 100 7) (bytes16 5))
        = some Outcome.undefined_behaviour := by
  decide

/-- C7 as stated fails: on a RIFF-conformant file whose format chunk declares 17 bytes
(followed by its pad byte) a walk over padded chunks finds the data payload at offset 46,
while the chunk walk of the program resumes at offset 37, one byte early, and never finds
a data chunk. -/
theorem odd_fmt_size_misaligns :
    riff_walk_spec odd_fmt_file 3 12 = some 46
    ∧ ∀ fuel, main fuel zero_env (Gain.finite 1 0) odd_fmt_file = none := by
  refine ⟨by decide, ?_⟩
  intro fuel
  have hpass := main_magic_ok fuel zero_env (Gain.finite 1 0) odd_fmt_file (by decide)
    (by decide) (by decide)
  rw [hpass]
  have hnone : chunkWalk odd_fmt_file fuel
      (Reader.mk 12 zero_env.chunk_header zero_env.chunk_fmt) = none := by
    match fuel with
    | 0 => rfl
    | 1 => decide
    | f + 2 =>
      have s1 := chunkWalk_fmt_step odd_fmt_file (f + 1)
        (Reader.mk 12 zero_env.chunk_header zero_env.chunk_fmt) (by decide) (by decide)
        (by decide)
      have s2 := chunkWalk_unknown_step odd_fmt_file f
        (Reader.mk 37 (store (xfread odd_fmt_file 12 8 1) zero_env.chunk_header)
          (store (xfread odd_fmt_file (12 + 8) 16 1) zero_env.chunk_fmt))
        (by decide) (by decide) (by decide)
      have e : (12 + 8 + 16 + (le32 odd_fmt_file (12 + 4) - 16)) = 37 := by decide
      simp only [e] at s1
      rw [s1, s2]
      exact chunkWalk_eof odd_fmt_file f _ (by decide) (by decide)
  rw [hnone]

/-- C7, amended: when a format chunk header at offset `p` declares a size `sz` above 16
and its header and first 16 payload bytes lie in the file, one pass of the walk stores
those 16 payload bytes as the descriptor, skips `sz - 16` further bytes and reads the next
chunk header at offset `p + 8 + sz` (format payload start plus `sz`); no pad byte is
skipped, so this is the next chunk of the padded RIFF layout exactly when `sz` is even,
and then a RIFF walk and the program go on from the same offset. -/
theorem fmt_chunk_skip (file : List Byte) (fuel : Nat) (st : Reader)
    (h : st.pos + 24 ≤ file.length) (hf : le32 file st.pos = ID_FMT)
    (hsz : 16 < le32 file (st.pos + 4)) :
    ∃ st1 : Reader,
      chunkWalk file (fuel + 1) st = chunkWalk file fuel st1
      ∧ st1.chunk_fmt.take 16 = (file.drop (st.pos + 8)).take 16
      ∧ st1.pos = (st.pos + 8 + 16) + (le32 file (st.pos + 4) - 16)
      ∧ st1.pos = (st.pos + 8) + le32 file (st.pos + 4)
      ∧ (st1.pos = riff_next st.pos (le32 file (st.pos + 4)) ↔ le32 file (st.pos + 4) % 2 = 0)
      ∧ (le32 file (st.pos + 4) % 2 = 0 →
          riff_walk_spec file (fuel + 1) st.pos = riff_walk_spec file fuel st1.pos) := by
  refine ⟨_, chunkWalk_fmt_step file fuel st h hf hsz, ?_, rfl, ?_, ?_, ?_⟩
  · simp only
    have hl := xfread_full file (st.pos + 8) 16 (show st.pos + 8 + 16 ≤ file.length by omega)
    have := store_take (xfread file (st.pos + 8) 16 1) st.chunk_fmt
    rw [hl] at this
    rw [this]
    simp [xfread]
  · simp only; omega
  · simp only [riff_next]; omega
  · intro heven
    rw [riff_walk_spec, if_pos (by omega), if_neg (by rw [hf]; decide)]
    simp only [riff_next]
    congr 1
    omega

theorem fmt_chunk_skip_witness :
    (12 + 24 ≤ ext_fmt_file.length ∧ le32 ext_fmt_file 12 = ID_FMT
      ∧ 16 < le32 ext_fmt_file (12 + 4))
    ∧ ∃ st1 : Reader,
        chunkWalk ext_fmt_file 2 (Reader.mk 12 [] []) = chunkWalk ext_fmt_file 1 st1
        ∧ st1.pos = 38 :=
  ⟨by decide,
   by
    obtain ⟨st1, h1, _, h3, _⟩ := fmt_chunk_skip ext_fmt_file 1 (Reader.mk 12 [] [])
      (by decide) (by decide) (by decide)
    exact ⟨st1, h1, h3.trans (by decide)⟩⟩

theorem bytes32_length (n : Nat) : (bytes32 n).length = 4 := rfl

theorem getD_append_right_add (A L : List Byte) (i : Nat) :
    (A ++ L).getD (A.length + i) 0 = L.getD i 0 := by
  simp only [List.getD_eq_getElem?_getD]
  rw [List.getElem?_append_right (by omega)]
  simp

theorem le32_append (A L : List Byte) (i : Nat) : le32 (A ++ L) (A.length + i) = le32 L i := by
  unfold le32
  have h1 : A.length + i + 1 = A.length + (i + 1) := by omega
  have h2 : A.length + i + 2 = A.length + (i + 2) := by omega
  have h3 : A.length + i + 3 = A.length + (i + 3) := by omega
  rw [h1, h2, h3, getD_append_right_add, getD_append_right_add, getD_append_right_add,
    getD_append_right_add]

theorem le32_bytes32 (n : Nat) (X : List Byte) (hn : n < 4294967296) :
    le32 (bytes32 n ++ X) 0 = n := by
  unfold le32 bytes32
  simp only [List.cons_append, List.getD_cons_zero, List.getD_cons_succ, Nat.zero_add]
  omega

theorem le32_bytes32_next (n m : Nat) (X : List Byte) (hm : m < 4294967296) :
    le32 (bytes32 n ++ (bytes32 m ++ X)) 4 = m := by
  have := le32_append (bytes32 n) (bytes32 m ++ X) 0
  rw [bytes32_length] at this
  rw [this]
  exact le32_bytes32 m X hm

theorem chunkWalk_fmt_any (file : List Byte) (fuel : Nat) (st : Reader)
    (h : st.pos + 24 ≤ file.length) (hf : le32 file st.pos = ID_FMT)
    (hsz : 16 ≤ le32 file (st.pos + 4)) :
    chunkWalk file (fuel + 1) st
      = chunkWalk file fuel (Reader.mk (st.pos + 8 + le32 file (st.pos + 4))
          (store (xfread file st.pos 8 1) st.chunk_header)
          (store (xfread file (st.pos + 8) 16 1) st.chunk_fmt)) := by
  rw [chunkWalk]
  simp only [chunk_id_read file st.pos _ (show st.pos + 8 ≤ file.length by omega),
    chunk_sz_read file st.pos _ (show st.pos + 8 ≤ file.length by omega),
    xfread_full file st.pos 8 (show st.pos + 8 ≤ file.length by omega),
    xfread_full file (st.pos + 8) 16 (show st.pos + 8 + 16 ≤ file.length by omega)]
  rw [if_pos hf]
  by_cases h16 : 16 < le32 file (st.pos + 4)
  · rw [if_pos h16]
    congr 2
    omega
  · rw [if_neg h16]
    congr 2
    omega

theorem walk_chunks :
    ∀ (l : List Chunk) (A B hdr fmt : List Byte) (fuel : Nat), (∀ ch ∈ l, chunk_ok ch) →
      ∃ hdr1 : List Byte,
        chunkWalk (A ++ (chunks_bytes l ++ B)) (l.length + fuel) (Reader.mk A.length hdr fmt)
          = chunkWalk (A ++ (chunks_bytes l ++ B)) fuel
              (Reader.mk (A.length + (chunks_bytes l).length) hdr1 (fmt_after l fmt)) := by
  intro l
  induction l with
  | nil =>
    intro A B hdr fmt fuel _
    exact ⟨hdr, by simp [chunks_bytes, fmt_after]⟩
  | cons ch rest ih =>
    intro A B hdr fmt fuel hok
    obtain ⟨ht, hd, hs, hfm⟩ := hok ch (List.mem_cons_self _ _)
    have hrest : ∀ c ∈ rest, chunk_ok c := fun c hc => hok c (List.mem_cons_of_mem _ hc)
    have hfile : A ++ (chunks_bytes (ch :: rest) ++ B)
        = A ++ (bytes32 ch.tag ++ (bytes32 ch.body.length ++ (ch.body ++ (chunks_bytes rest ++ B)))) := by
      simp only [chunks_bytes, chunk_bytes, List.append_assoc]
    have hfile2 : A ++ (chunks_bytes (ch :: rest) ++ B)
        = (A ++ chunk_bytes ch) ++ (chunks_bytes rest ++ B) := by
      simp only [chunks_bytes, List.append_assoc]
    have hlenA : (A ++ chunk_bytes ch).length = A.length + 8 + ch.body.length := by
      simp only [chunk_bytes, List.length_append, bytes32_length]; omega
    have hflen : (A ++ (chunks_bytes (ch :: rest) ++ B)).length
        = A.length + 8 + ch.body.length + (chunks_bytes rest ++ B).length := by
      rw [hfile2, List.length_append, hlenA]
    have hid : le32 (A ++ (chunks_bytes (ch :: rest) ++ B)) A.length = ch.tag := by
      rw [hfile]
      have := le32_append A (bytes32 ch.tag ++ (bytes32 ch.body.length
        ++ (ch.body ++ (chunks_bytes rest ++ B)))) 0
      rw [Nat.add_zero] at this
      rw [this]
      exact le32_bytes32 _ _ ht
    have hsz : le32 (A ++ (chunks_bytes (ch :: rest) ++ B)) (A.length + 4) = ch.body.length := by
      rw [hfile, le32_append]
      exact le32_bytes32_next _ _ _ hs
    have hlen1 : (chunks_bytes (ch :: rest)).length
        = 8 + ch.body.length + (chunks_bytes rest).length := by
      simp only [chunks_bytes, chunk_bytes, List.length_append, bytes32_length]; omega
    have hfuel : (ch :: rest).length + fuel = (rest.length + fuel) + 1 := by
      simp only [List.length_cons]; omega
    rw [hfuel]
    by_cases hfmt : ch.tag = ID_FMT
    · have h16 := hfm hfmt
      have hstep := chunkWalk_fmt_any (A ++ (chunks_bytes (ch :: rest) ++ B)) (rest.length + fuel)
        (Reader.mk A.length hdr fmt) (by simp only; rw [hflen]; omega)
        (by simp only; rw [hid]; exact hfmt) (by simp only; rw [hsz]; exact h16)
      simp only [hsz] at hstep
      have hx : xfread (A ++ (chunks_bytes (ch :: rest) ++ B)) (A.length + 8) 16 1
          = ch.body.take 16 := by
        unfold xfread
        rw [hfile]
        have e : A ++ (bytes32 ch.tag ++ (bytes32 ch.body.length
              ++ (ch.body ++ (chunks_bytes rest ++ B))))
            = (A ++ (bytes32 ch.tag ++ bytes32 ch.body.length))
              ++ (ch.body ++ (chunks_bytes rest ++ B)) := by
          simp only [List.append_assoc]
        have el : (A ++ (bytes32 ch.tag ++ bytes32 ch.body.length)).length = A.length + 8 := by
          simp only [List.length_append, bytes32_length]
        rw [e, ← el, List.drop_left, Nat.mul_one, List.take_append_of_le_length h16]
      rw [hstep, hx, hfile2]
      obtain ⟨hdr1, hih⟩ := ih (A ++ chunk_bytes ch) B
        (store (xfread ((A ++ chunk_bytes ch) ++ (chunks_bytes rest ++ B)) A.length 8 1) hdr)
        (store (ch.body.take 16) fmt) fuel hrest
      rw [hlenA] at hih
      refine ⟨hdr1, ?_⟩
      rw [hih]
      simp only [fmt_after, if_pos hfmt, hlen1]
      congr 2
      omega
    · have hstep := chunkWalk_unknown_step (A ++ (chunks_bytes (ch :: rest) ++ B))
        (rest.length + fuel) (Reader.mk A.length hdr fmt) (by simp only; rw [hflen]; omega)
        (by simp only; rw [hid]; exact hfmt) (by simp only; rw [hid]; exact hd)
      simp only [hsz] at hstep
      rw [hstep, hfile2]
      obtain ⟨hdr1, hih⟩ := ih (A ++ chunk_bytes ch) B
        (store (xfread ((A ++ chunk_bytes ch) ++ (chunks_bytes rest ++ B)) A.length 8 1) hdr)
        fmt fuel hrest
      rw [hlenA] at hih
      refine ⟨hdr1, ?_⟩
      rw [hih]
      simp only [fmt_after, if_neg hfmt, hlen1]
      congr 2
      omega

theorem riff_file_split (riff_sz : Nat) (l : List Chunk) (data_sz rest : List Byte) :
    riff_file riff_sz l data_sz rest
      = ((bytes32 ID_RIFF ++ (bytes32 riff_sz ++ bytes32 ID_WAVE)) ++ chunks_bytes l)
          ++ (bytes32 ID_DATA ++ (data_sz ++ rest)) := by
  simp only [riff_file, List.append_assoc]

theorem riff_file_offset (riff_sz : Nat) (l : List Chunk) :
    ((bytes32 ID_RIFF ++ (bytes32 riff_sz ++ bytes32 ID_WAVE)) ++ chunks_bytes l).length
      = 12 + (chunks_bytes l).length := by
  simp only [List.length_append, bytes32_length]

theorem riff_file_length (riff_sz : Nat) (l : List Chunk) (data_sz rest : List Byte)
    (hd : data_sz.length = 4) :
    (riff_file riff_sz l data_sz rest).length = 12 + (chunks_bytes l).length + 8 + rest.length := by
  simp only [riff_file, List.length_append, bytes32_length, hd]
  omega

theorem riff_file_drop (riff_sz : Nat) (l : List Chunk) (data_sz rest : List Byte)
    (hd : data_sz.length = 4) :
    (riff_file riff_sz l data_sz rest).drop (12 + (chunks_bytes l).length + 8) = rest := by
  have e : riff_file riff_sz l data_sz rest
      = (((bytes32 ID_RIFF ++ (bytes32 riff_sz ++ bytes32 ID_WAVE)) ++ chunks_bytes l)
          ++ (bytes32 ID_DATA ++ data_sz)) ++ rest := by
    simp only [riff_file, List.append_assoc]
  have el : (((bytes32 ID_RIFF ++ (bytes32 riff_sz ++ bytes32 ID_WAVE)) ++ chunks_bytes l)
      ++ (bytes32 ID_DATA ++ data_sz)).length = 12 + (chunks_bytes l).length + 8 := by
    simp only [List.length_append, bytes32_length, hd]
  rw [e, ← el, List.drop_left]

theorem accepts_of_walk {fuel : Nat} {env : Env} {file : List Byte} {st : Reader}
    (h12 : 12 ≤ file.length) (h1 : le32 file 0 = ID_RIFF) (h2 : le32 file 8 = ID_WAVE)
    (hw : chunkWalk file fuel (Reader.mk 12 env.chunk_header env.chunk_fmt) = some st) :
    accepts fuel env file st := by
  have hlen := xfread_length file 0 12 1
  have e3 : (xfread file 0 12 1).length = 12 := xfread_full file 0 12 (by omega)
  refine ⟨?_, ?_, ?_⟩
  · unfold riff_id
    rw [le32_store _ _ 0 (by omega), le32_xfread _ _ _ _ (by omega)]
    exact h1
  · unfold wave_id
    rw [le32_store _ _ 8 (by omega), le32_xfread _ _ _ _ (by omega)]
    exact h2
  · rw [e3]; exact hw

theorem riff_file_accepts (env : Env) (riff_sz : Nat) (l : List Chunk) (data_sz rest : List Byte)
    (hok : ∀ ch ∈ l, chunk_ok ch) (hd : data_sz.length = 4) :
    ∃ hdr1 : List Byte,
      accepts (l.length + 1) env (riff_file riff_sz l data_sz rest)
        (Reader.mk (12 + (chunks_bytes l).length + 8) hdr1 (fmt_after l env.chunk_fmt)) := by
  have hlen := riff_file_length riff_sz l data_sz rest hd
  have h1 : le32 (riff_file riff_sz l data_sz rest) 0 = ID_RIFF := by
    simp only [riff_file, List.append_assoc]
    exact le32_bytes32 _ _ (by decide)
  have h2 : le32 (riff_file riff_sz l data_sz rest) 8 = ID_WAVE := by
    have e : riff_file riff_sz l data_sz rest
        = (bytes32 ID_RIFF ++ bytes32 riff_sz)
            ++ (bytes32 ID_WAVE ++ (chunks_bytes l ++ (bytes32 ID_DATA ++ (data_sz ++ rest)))) := by
      simp only [riff_file, List.append_assoc]
    have := le32_append (bytes32 ID_RIFF ++ bytes32 riff_sz)
      (bytes32 ID_WAVE ++ (chunks_bytes l ++ (bytes32 ID_DATA ++ (data_sz ++ rest)))) 0
    simp only [List.length_append, bytes32_length, Nat.add_zero] at this
    rw [e, this]
    exact le32_bytes32 _ _ (by decide)
  obtain ⟨hdr0, hw⟩ := walk_chunks l (bytes32 ID_RIFF ++ (bytes32 riff_sz ++ bytes32 ID_WAVE))
    (bytes32 ID_DATA ++ (data_sz ++ rest)) env.chunk_header env.chunk_fmt 1 hok
  have hA : (bytes32 ID_RIFF ++ (bytes32 riff_sz ++ bytes32 ID_WAVE)).length = 12 := rfl
  rw [hA] at hw
  have hfile : (bytes32 ID_RIFF ++ (bytes32 riff_sz ++ bytes32 ID_WAVE))
      ++ (chunks_bytes l ++ (bytes32 ID_DATA ++ (data_sz ++ rest)))
      = riff_file riff_sz l data_sz rest := rfl
  rw [hfile] at hw
  have hdata : le32 (riff_file riff_sz l data_sz rest) (12 + (chunks_bytes l).length) = ID_DATA := by
    rw [riff_file_split, ← riff_file_offset riff_sz l]
    have := le32_append ((bytes32 ID_RIFF ++ (bytes32 riff_sz ++ bytes32 ID_WAVE)) ++ chunks_bytes l)
      (bytes32 ID_DATA ++ (data_sz ++ rest)) 0
    rw [Nat.add_zero] at this
    rw [this]
    exact le32_bytes32 _ _ (by decide)
  have hstep := chunkWalk_data_step (riff_file riff_sz l data_sz rest) 0
    (Reader.mk (12 + (chunks_bytes l).length) hdr0 (fmt_after l env.chunk_fmt))
    (by simp only; omega) hdata
  have h12 : 12 ≤ (riff_file riff_sz l data_sz rest).length := by omega
  refine ⟨store (xfread (riff_file riff_sz l data_sz rest) (12 + (chunks_bytes l).length) 8 1) hdr0,
    accepts_of_walk h12 h1 h2 ?_⟩
  rw [hw, hstep]

theorem emit_length (gain : Gain) (buffer : List Byte) :
    ∀ (cnt p : Nat), (emit gain buffer p cnt).length = 2 * cnt := by
  intro cnt
  induction cnt with
  | zero => intro p; simp [emit]
  | succ n ih =>
    intro p
    have e : emit gain buffer p (n + 1)
        = put16 (apply_gain gain (sample16 buffer p)) ++ emit gain buffer (p + 1) n := by
      simp only [emit, List.range'_succ, List.flatMap_cons]
    rw [e, List.length_append, ih]
    simp only [put16, List.length_cons, List.length_nil]
    omega

theorem process_buffer_count (gain : Gain) (c : Nat) (hc : 0 < c) (buffer : List Byte)
    (num_read : Nat) :
    ∃ w, process_buffer gain 2 c buffer num_read = some w
      ∧ w.length = 2 * (passes c (num_read / 2) * c) := by
  unfold process_buffer
  rw [if_pos rfl, outer_loop_eq gain buffer c _ hc _ 0 0 (by omega)]
  exact ⟨_, rfl, by rw [emit_length, Nat.sub_zero]⟩

/-- C14, the code at a failing input: on a stereo file with 14 bytes after the data
chunk header the one buffer read returns 14 bytes, that is 7 samples, but the two `for`
loops run 4 passes of 2 channels and write 8 samples; the eighth is decoded from buffer
bytes 14 and 15, which the read did not fill and which still hold the stale bytes of the
allocated block. -/
theorem partial_frame_reads_stale :
    (xfread tail_chunk_file 44 1 (buffer_size (wav44_reader 2 16 4).chunk_fmt)).length = 14
    ∧ accepts 2 stale_env tail_chunk_file (wav44_reader 2 16 4)
    ∧ main 2 stale_env (Gain.finite 1 0) tail_chunk_file
        = some (Outcome.exit 0 (tail_chunk_file ++ [0xCD, 0xAB])) := by
  decide

theorem xfread_congr (f1 f2 : List Byte) (pos size nmemb : Nat) (h : f1.drop pos = f2.drop pos) :
    xfread f1 pos size nmemb = xfread f2 pos size nmemb := by
  unfold xfread
  rw [h]

theorem sample_loop_congr (gain : Gain) (close : Nat → Bool) (f1 f2 : List Byte)
    (size bps c : Nat) :
    ∀ (fuel k pos : Nat) (buffer : List Byte), f1.drop pos = f2.drop pos →
      sample_loop gain close f1 size bps c fuel k pos buffer
        = sample_loop gain close f2 size bps c fuel k pos buffer := by
  intro fuel
  induction fuel with
  | zero => intro k pos buffer _; rfl
  | succ f ih =>
    intro k pos buffer h
    have hnext : ∀ n, f1.drop (pos + n) = f2.drop (pos + n) := by
      intro n
      rw [← List.drop_drop, ← List.drop_drop, h]
    unfold sample_loop
    simp only [xfread_congr f1 f2 pos 1 size h]
    rw [ih (k + 1) _ _ (hnext _)]

theorem passes_ge {c : Nat} (hc : 0 < c) (x : Nat) : x ≤ passes c x * c := by
  unfold passes
  have h1 := Nat.div_add_mod (x + c - 1) c
  have h2 := Nat.mod_lt (x + c - 1) hc
  have h3 : c * ((x + c - 1) / c) = (x + c - 1) / c * c := Nat.mul_comm _ _
  omega

theorem scale_samples_take_even (gain : Gain) :
    ∀ (n : Nat) (l : List Byte), l.length ≤ n →
      scale_samples gain (l.take (2 * (l.length / 2))) = scale_samples gain l := by
  intro n
  induction n with
  | zero =>
    intro l hl
    have : l = [] := List.length_eq_zero.mp (by omega)
    subst this
    rfl
  | succ n ih =>
    intro l hl
    match l with
    | [] => rfl
    | [b] =>
      have e : 2 * ([b].length / 2) = 0 := by simp
      rw [e]
      simp [scale_samples]
    | lo :: hi :: rest =>
      have hr : rest.length ≤ n := by simp at hl; omega
      have e : 2 * ((lo :: hi :: rest).length / 2) = (2 * (rest.length / 2) + 1) + 1 := by
        simp only [List.length_cons]; omega
      rw [e, List.take_succ_cons, List.take_succ_cons]
      simp only [scale_samples, ih rest hr]

theorem scale_samples_length_any (gain : Gain) :
    ∀ (n : Nat) (l : List Byte), l.length ≤ n →
      (scale_samples gain l).length = 2 * (l.length / 2) := by
  intro n
  induction n with
  | zero =>
    intro l hl
    have : l = [] := List.length_eq_zero.mp (by omega)
    subst this
    rfl
  | succ n ih =>
    intro l hl
    match l with
    | [] => rfl
    | [b] =>
      have e : 2 * ([b].length / 2) = 0 := by simp
      rw [e]
      simp [scale_samples]
    | lo :: hi :: rest =>
      have hr : rest.length ≤ n := by simp at hl; omega
      simp only [scale_samples, List.length_append, ih rest hr, put16, List.length_cons,
        List.length_nil]
      omega

theorem process_buffer_any (gain : Gain) (c : Nat) (hc : 0 < c) (got mem : List Byte) :
    ∃ stale, process_buffer gain 2 c (store got mem) got.length
      = some (scale_samples gain got ++ stale) := by
  unfold process_buffer
  rw [if_pos rfl, outer_loop_eq gain _ c _ hc _ 0 0 (by omega), Nat.sub_zero]
  have hge := passes_ge hc (got.length / 2)
  obtain ⟨extra, hextra⟩ : ∃ extra, passes c (got.length / 2) * c = got.length / 2 + extra :=
    ⟨passes c (got.length / 2) * c - got.length / 2, by omega⟩
  have hlen : 2 * 0 + 2 * (got.length / 2) ≤ (store got mem).length := by
    unfold store
    rw [List.length_append]
    omega
  rw [hextra, emit_add, emit_eq_scale gain _ _ 0 hlen]
  have ht : (List.drop (2 * 0) (store got mem)).take (2 * (got.length / 2))
      = got.take (2 * (got.length / 2)) := by
    unfold store
    simp only [Nat.mul_zero, List.drop_zero]
    exact List.take_append_of_le_length (by omega)
  rw [ht, scale_samples_take_even gain _ got (Nat.le_refl _)]
  exact ⟨_, rfl⟩

theorem sample_loop_all (gain : Gain) (close : Nat → Bool) (file : List Byte) (c : Nat)
    (hc : 0 < c) (hclose : ∀ k, close k = false) :
    ∀ (fuel k pos : Nat) (buffer : List Byte), file.length - pos < fuel →
      ∃ stale, sample_loop gain close file (c * 2 * 1024) 2 c fuel k pos buffer
        = some (scale_samples gain (file.drop pos) ++ stale) := by
  intro fuel
  induction fuel with
  | zero => intro k pos buffer h; omega
  | succ f ih =>
    intro k pos buffer hfuel
    unfold sample_loop
    simp only
    have hlen := xfread_length file pos 1 (c * 2 * 1024)
    have hcat := xfread_append_drop file pos 1 (c * 2 * 1024)
    have hdef : xfread file pos 1 (c * 2 * 1024) = (file.drop pos).take (1 * (c * 2 * 1024)) := rfl
    generalize xfread file pos 1 (c * 2 * 1024) = got at hlen hcat hdef
    by_cases h0 : 0 < got.length
    · have hle : got.length ≤ file.length - pos := by rw [hlen]; exact Nat.min_le_right _ _
      obtain ⟨rest, hrest⟩ := ih (k + 1) (pos + got.length) (store got buffer) (by omega)
      by_cases hfull : 1 * (c * 2 * 1024) ≤ file.length - pos
      · have hgot : got.length % (2 * c) = 0 := by
          rw [hlen, Nat.min_eq_left hfull]
          have : 1 * (c * 2 * 1024) = 2 * c * 1024 := by ring
          rw [this]; exact Nat.mul_mod_right _ _
        rw [if_pos h0, process_buffer_frames gain c hc got buffer hgot]
        simp only [hclose k, true_and, if_pos h0]
        rw [hrest]
        simp only
        obtain ⟨y, hy⟩ := Nat.dvd_of_mod_eq_zero hgot
        refine ⟨rest, ?_⟩
        rw [← hcat, scale_samples_append gain (c * y) got _ (by rw [hy]; ring),
          List.append_assoc]
      · have hall : got = file.drop pos := by
          rw [hdef]
          exact List.take_of_length_le (by rw [List.length_drop]; omega)
        have hend : file.drop (pos + got.length) = [] :=
          List.drop_eq_nil_of_le (by rw [hlen, Nat.min_eq_right (by omega)]; omega)
        obtain ⟨stale, hstale⟩ := process_buffer_any gain c hc got buffer
        rw [if_pos h0, hstale]
        simp only [hclose k, true_and, if_pos h0]
        rw [hrest, hend]
        simp only
        refine ⟨stale ++ rest, ?_⟩
        rw [← hall]
        simp [scale_samples]
    · rw [if_neg h0]
      have hnil : got = [] := List.length_eq_zero.mp (by omega)
      have hz : file.length - pos = 0 := by
        rw [hnil] at hlen
        simp only [List.length_nil] at hlen
        have : 0 < 1 * (c * 2 * 1024) := by omega
        omega
      have : file.drop pos = [] := List.drop_eq_nil_of_le (by omega)
      rw [this]
      exact ⟨[], by simp [scale_samples]⟩

theorem process_buffer_samples (gain : Gain) (c : Nat) (hc : 0 < c) (got mem : List Byte)
    (hs : (got.length / 2) % c = 0) :
    process_buffer gain 2 c (store got mem) got.length = some (scale_samples gain got) := by
  unfold process_buffer
  rw [if_pos rfl, outer_loop_eq gain _ c _ hc _ 0 0 (by omega), Nat.sub_zero]
  obtain ⟨j, hj⟩ := Nat.dvd_of_mod_eq_zero hs
  have hp : passes c (got.length / 2) * c = got.length / 2 := by
    rw [hj, Nat.mul_comm c j]; exact passes_mul hc
  have hlen : 2 * 0 + 2 * (got.length / 2) ≤ (store got mem).length := by
    unfold store
    rw [List.length_append]
    omega
  rw [hp, emit_eq_scale gain _ _ 0 hlen]
  have ht : (List.drop (2 * 0) (store got mem)).take (2 * (got.length / 2))
      = got.take (2 * (got.length / 2)) := by
    unfold store
    simp only [Nat.mul_zero, List.drop_zero]
    exact List.take_append_of_le_length (by omega)
  rw [ht, scale_samples_take_even gain _ got (Nat.le_refl _)]

theorem sample_loop_samples (gain : Gain) (close : Nat → Bool) (file : List Byte) (c : Nat)
    (hc : 0 < c) (hclose : ∀ k, close k = false) :
    ∀ (fuel k pos : Nat) (buffer : List Byte), file.length - pos < fuel →
      ((file.length - pos) / 2) % c = 0 →
      sample_loop gain close file (c * 2 * 1024) 2 c fuel k pos buffer
        = some (scale_samples gain (file.drop pos)) := by
  intro fuel
  induction fuel with
  | zero => intro k pos buffer h; omega
  | succ f ih =>
    intro k pos buffer hfuel hs
    unfold sample_loop
    simp only
    have hlen := xfread_length file pos 1 (c * 2 * 1024)
    have hcat := xfread_append_drop file pos 1 (c * 2 * 1024)
    have hdef : xfread file pos 1 (c * 2 * 1024) = (file.drop pos).take (1 * (c * 2 * 1024)) := rfl
    generalize xfread file pos 1 (c * 2 * 1024) = got at hlen hcat hdef
    by_cases h0 : 0 < got.length
    · have hle : got.length ≤ file.length - pos := by rw [hlen]; exact Nat.min_le_right _ _
      by_cases hfull : 1 * (c * 2 * 1024) ≤ file.length - pos
      · have hgl : got.length = 2 * (c * 1024) := by
          rw [hlen, Nat.min_eq_left hfull]; ring
        have hgot : got.length % (2 * c) = 0 := by
          rw [hgl]
          have : 2 * (c * 1024) = 2 * c * 1024 := by ring
          rw [this]; exact Nat.mul_mod_right _ _
        obtain ⟨j, hj⟩ := Nat.dvd_of_mod_eq_zero hs
        have hnext : ((file.length - (pos + got.length)) / 2) % c = 0 := by
          have e : (file.length - (pos + got.length)) / 2 = c * (j - 1024) := by
            rw [Nat.mul_sub]
            omega
          rw [e]; exact Nat.mul_mod_right _ _
        have hrest := ih (k + 1) (pos + got.length) (store got buffer) (by omega) hnext
        rw [if_pos h0, process_buffer_frames gain c hc got buffer hgot]
        simp only [hclose k, true_and, if_pos h0]
        rw [hrest]
        simp only
        obtain ⟨y, hy⟩ := Nat.dvd_of_mod_eq_zero hgot
        rw [← hcat, scale_samples_append gain (c * y) got _ (by rw [hy]; ring)]
      · have hall : got = file.drop pos := by
          rw [hdef]
          exact List.take_of_length_le (by rw [List.length_drop]; omega)
        have hgl : got.length = file.length - pos := by
          rw [hlen, Nat.min_eq_right (by omega)]
        have hend : file.drop (pos + got.length) = [] :=
          List.drop_eq_nil_of_le (by omega)
        have hnext : ((file.length - (pos + got.length)) / 2) % c = 0 := by
          have e : (file.length - (pos + got.length)) / 2 = 0 := by omega
          rw [e]; exact Nat.zero_mod _
        have hrest := ih (k + 1) (pos + got.length) (store got buffer) (by omega) hnext
        rw [if_pos h0, process_buffer_samples gain c hc got buffer (by rw [hgl]; exact hs)]
        simp only [hclose k, true_and, if_pos h0]
        rw [hrest, hend]
        simp only
        rw [← hall]
        simp [scale_samples]
    · rw [if_neg h0]
      have hnil : got = [] := List.length_eq_zero.mp (by omega)
      have hz : file.length - pos = 0 := by
        rw [hnil] at hlen
        simp only [List.length_nil] at hlen
        have : 0 < 1 * (c * 2 * 1024) := by omega
        omega
      have : file.drop pos = [] := List.drop_eq_nil_of_le (by omega)
      rw [this]
      simp [scale_samples]

theorem emit_zero (e : Int) (buffer : List Byte) (p cnt : Nat) :
    ∀ b ∈ emit (Gain.finite 0 e) buffer p cnt, b = 0 := by
  intro b hb
  unfold emit at hb
  rw [List.mem_flatMap] at hb
  obtain ⟨j, _, hj⟩ := hb
  rw [apply_gain_zero_any] at hj
  have hp : put16 0 = [0, 0] := by decide
  rw [hp] at hj
  simp only [List.mem_cons, List.mem_singleton, List.not_mem_nil, or_false, or_self] at hj
  exact hj

theorem sample_loop_zero (e : Int) (close : Nat → Bool) (file : List Byte) (size c : Nat)
    (hc : 0 < c) :
    ∀ (fuel k pos : Nat) (buffer out : List Byte),
      sample_loop (Gain.finite 0 e) close file size 2 c fuel k pos buffer = some out →
      ∀ b ∈ out, b = 0 := by
  intro fuel
  induction fuel with
  | zero => intro k pos buffer out h; simp [sample_loop] at h
  | succ f ih =>
    intro k pos buffer out h
    unfold sample_loop at h
    simp only at h
    generalize xfread file pos 1 size = got at h
    by_cases h0 : 0 < got.length
    · rw [if_pos h0] at h
      have hw : process_buffer (Gain.finite 0 e) 2 c (store got buffer) got.length
          = some (emit (Gain.finite 0 e) (store got buffer) 0 (passes c (got.length / 2) * c)) := by
        unfold process_buffer
        rw [if_pos rfl, outer_loop_eq _ _ c _ hc _ 0 0 (by omega), Nat.sub_zero]
      rw [hw] at h
      simp only at h
      by_cases hk : close k = false ∧ 0 < got.length
      · rw [if_pos hk] at h
        cases hr : sample_loop (Gain.finite 0 e) close file size 2 c f (k + 1)
            (pos + got.length) (store got buffer) with
        | none => rw [hr] at h; simp at h
        | some r =>
          rw [hr] at h
          simp only [Option.some.injEq] at h
          intro b hb
          rw [← h, List.mem_append] at hb
          rcases hb with hb | hb
          · exact emit_zero e _ _ _ b hb
          · exact ih _ _ _ r hr b hb
      · rw [if_neg hk] at h
        simp only [Option.some.injEq] at h
        intro b hb
        rw [← h] at hb
        exact emit_zero e _ _ _ b hb
    · rw [if_neg h0] at h
      simp only [Option.some.injEq] at h
      intro b hb
      rw [← h] at hb
      simp at hb

theorem sample16_append_left (l t : List Byte) (k : Nat) (h : 2 * k + 1 < l.length) :
    sample16 (l ++ t) k = sample16 l k := by
  unfold sample16 le16
  rw [List.getD_append _ _ _ _ (by omega), List.getD_append _ _ _ _ (by omega)]

theorem after_walk_of_loop (env : Env) (gain : Gain) (file : List Byte) (st : Reader)
    (w : List Byte) (hmalloc : env.malloc_null (buffer_size st.chunk_fmt) = false)
    (hp : st.pos ≤ file.length) (h100 : st.pos ≤ 100)
    (hloop : sample_loop gain env.close file (buffer_size st.chunk_fmt)
      (bytes_per_sample st.chunk_fmt) (num_channels st.chunk_fmt) (file.length + 1) 0 st.pos
      env.buffer = some w) :
    after_walk env gain file st = some (Outcome.exit 0 (file.take st.pos ++ w)) := by
  unfold after_walk
  simp only [hmalloc, Bool.false_eq_true, if_false]
  rw [if_neg (by omega)]
  have hl : (xfread file 0 st.pos 1).length = st.pos := by
    rw [xfread_length]; omega
  rw [hl, header_copy file st.pos hp, hloop]

/-- C1, the code at a failing input: `tail_chunk_file` is a stereo 16-bit file whose data
chunk (one frame) is followed by a "LIST" chunk with a 2-byte payload, so 14 bytes follow
the data chunk header.  With gain 1.0 and a zero-filled buffer the run writes 16 bytes
after the header bytes: the 14 input bytes and one more sample, decoded from buffer bytes
14 and 15, which the read did not fill.  The bytes written after the header are not the
input bytes after the data chunk header. -/
theorem gain_one_extra_sample :
    accepts 2 zero_env tail_chunk_file (wav44_reader 2 16 4)
    ∧ tail_chunk_file.drop 44 = [1, 0, 2, 0, 0x4C, 0x49, 0x53, 0x54, 2, 0, 0, 0, 9, 9]
    ∧ main 2 zero_env (Gain.finite 1 0) tail_chunk_file
        = some (Outcome.exit 0 (tail_chunk_file.take 44
            ++ [1, 0, 2, 0, 0x4C, 0x49, 0x53, 0x54, 2, 0, 0, 0, 9, 9, 0, 0])) := by
  decide

/-- C5, the code at a failing input: on `tail_chunk_file` (stereo, 14 bytes, that is 7
samples, after the data chunk header) the run with gain 0.0 writes 16 zero bytes after the
header bytes, that is 8 samples: one more than the input holds. -/
theorem gain_zero_extra_sample :
    accepts 2 stale_env tail_chunk_file (wav44_reader 2 16 4)
    ∧ (tail_chunk_file.drop 44).length = 14
    ∧ main 2 stale_env (Gain.finite 0 0) tail_chunk_file
        = some (Outcome.exit 0 (tail_chunk_file.take 44
            ++ [0, 0, 0, 0, 0, 0, 0, 0, 0, 0, 0, 0, 0, 0, 0, 0])) := by
  decide

/-- C4: with gain 2.0 (in any dyadic form `2 ^ k * 2 ^ (1 - k)`) every 16-bit sample `s`
becomes `2 * s` reduced modulo `2 ^ 16` into the signed range, with no clipping, and the
two bytes written for it are the low and the high byte of `2 * s mod 2 ^ 16`; 1000 gives
2000 and 20000 gives -25536.  In a run on an accepted 16-bit input (at least one channel,
`close` never set) the sample loop writes at least two bytes per complete input sample,
and the output sample at every input sample position is the wrapped double of the input
sample there; when the header bytes fit `headers_buffer` the run exits 0 with the header
bytes followed by these bytes.  On the file holding the samples 1000 and 20000 the bytes
written after the header are D0 07 40 9C. -/
theorem gain_two_wraps (fuel : Nat) (env : Env) (file : List Byte) (st : Reader) (k : Nat)
    (s : Int)
    (hacc : accepts fuel env file st)
    (hbits : bits_per_sample st.chunk_fmt = 16)
    (hch : 1 ≤ num_channels st.chunk_fmt)
    (hmalloc : env.malloc_null (buffer_size st.chunk_fmt) = false)
    (hclose : ∀ j, env.close j = false)
    (h1 : -32768 ≤ s) (h2 : s ≤ 32767) :
    apply_gain (Gain.finite (2 ^ k) (1 - (k : Int))) s = (2 * s + 32768) % 65536 - 32768
    ∧ (put16 (apply_gain (Gain.finite (2 ^ k) (1 - (k : Int))) s)).map Fin.val
        = [((2 * s) % 65536).toNat % 256, ((2 * s) % 65536).toNat / 256]
    ∧ apply_gain (Gain.finite (2 ^ k) (1 - (k : Int))) 1000 = 2000
    ∧ apply_gain (Gain.finite (2 ^ k) (1 - (k : Int))) 20000 = -25536
    ∧ (∃ out : List Byte,
        sample_loop (Gain.finite (2 ^ k) (1 - (k : Int))) env.close file
            (buffer_size st.chunk_fmt) (bytes_per_sample st.chunk_fmt)
            (num_channels st.chunk_fmt) (file.length + 1) 0 st.pos env.buffer = some out
        ∧ 2 * ((file.length - st.pos) / 2) ≤ out.length
        ∧ (∀ j, 2 * j + 1 < file.length - st.pos →
            sample16 out j = (2 * sample16 (file.drop st.pos) j + 32768) % 65536 - 32768)
        ∧ (st.pos ≤ 100 →
            main fuel env (Gain.finite (2 ^ k) (1 - (k : Int))) file
              = some (Outcome.exit 0 (file.take st.pos ++ out))))
    ∧ main 2 zero_env (Gain.finite 1 1) (wav44 1 16 [0xE8, 0x03, 0x20, 0x4E])
        = some (Outcome.exit 0 ((wav44 1 16 [0xE8, 0x03, 0x20, 0x4E]).take 44
            ++ [0xD0, 0x07, 0x40, 0x9C]))
    ∧ sample16 [0xE8, 0x03, 0x20, 0x4E] 0 = 1000
    ∧ sample16 [0xE8, 0x03, 0x20, 0x4E] 1 = 20000
    ∧ sample16 [0xD0, 0x07, 0x40, 0x9C] 0 = 2000
    ∧ sample16 [0xD0, 0x07, 0x40, 0x9C] 1 = -25536 := by
  have hw := apply_gain_two_wrap k s h1 h2
  refine ⟨hw, ?_, ?_, ?_, ?_, by decide, by decide, by decide, by decide, by decide⟩
  · apply put16_bytes
    rw [hw]
    omega
  · rw [apply_gain_two_wrap k 1000 (by decide) (by decide)]; decide
  · rw [apply_gain_two_wrap k 20000 (by decide) (by decide)]; decide
  · obtain ⟨stale, hall⟩ := sample_loop_all (Gain.finite (2 ^ k) (1 - (k : Int))) env.close file
      (num_channels st.chunk_fmt) hch hclose (file.length + 1) 0 st.pos env.buffer (by omega)
    have hloop : sample_loop (Gain.finite (2 ^ k) (1 - (k : Int))) env.close file
        (buffer_size st.chunk_fmt) (bytes_per_sample st.chunk_fmt)
        (num_channels st.chunk_fmt) (file.length + 1) 0 st.pos env.buffer
        = some (scale_samples (Gain.finite (2 ^ k) (1 - (k : Int))) (file.drop st.pos)
            ++ stale) := by
      simp only [buffer_size, bytes_per_sample_16 hbits]
      exact hall
    have hlen := scale_samples_length_any (Gain.finite (2 ^ k) (1 - (k : Int))) _
      (file.drop st.pos) (Nat.le_refl _)
    rw [List.length_drop] at hlen
    refine ⟨_, hloop, ?_, ?_, ?_⟩
    · rw [List.length_append, hlen]; omega
    · intro j hj
      rw [sample16_append_left _ _ _ (by rw [hlen]; omega),
        scale_samples_get _ j _ (by rw [List.length_drop]; exact hj)]
      exact apply_gain_two_wrap k _ (toInt16_range _).1 (toInt16_range _).2
    · intro h100
      rw [main_of_accepts _ hacc]
      exact after_walk_of_loop env _ file st _ hmalloc (accepts_pos_le hacc) h100 hloop

theorem gain_two_wraps_witness :
    accepts 2 zero_env (wav44 1 16 [0xE8, 0x03, 0x20, 0x4E]) (wav44_reader 1 16 4)
    ∧ (-32768 ≤ (-20000 : Int) ∧ (-20000 : Int) ≤ 32767)
    ∧ (put16 (apply_gain (Gain.finite (2 ^ 0) (1 - ((0 : Nat) : Int))) (-20000))).map Fin.val
        = [0xC0, 0x63]
    ∧ ∃ out : List Byte,
        main 2 zero_env (Gain.finite (2 ^ 0) (1 - ((0 : Nat) : Int)))
            (wav44 1 16 [0xE8, 0x03, 0x20, 0x4E])
          = some (Outcome.exit 0 ((wav44 1 16 [0xE8, 0x03, 0x20, 0x4E]).take 44 ++ out))
        ∧ sample16 out 0 = 2000 ∧ sample16 out 1 = -25536 := by
  have h := gain_two_wraps 2 zero_env (wav44 1 16 [0xE8, 0x03, 0x20, 0x4E])
    (wav44_reader 1 16 4) 0 (-20000) (by decide) (by decide) (by decide) rfl (fun _ => rfl)
    (by decide) (by decide)
  obtain ⟨_, hb, _, _, ⟨out, _, _, hs, hm⟩, _⟩ := h
  refine ⟨by decide, by decide, hb.trans (by decide), out, hm (by decide), ?_, ?_⟩
  · exact (hs 0 (by decide)).trans (by decide)
  · exact (hs 1 (by decide)).trans (by decide)

/-- C16 as stated fails: on a mono 16-bit file with 3 bytes after the data chunk header
the run with gain 1.0 writes 2 bytes after the header; the last input byte, 127, is not
decoded or scaled as (part of) a sample. -/
theorem odd_byte_not_decoded :
    accepts 2 zero_env (wav44 1 16 [1, 0, 127]) (wav44_reader 1 16 3)
    ∧ (wav44 1 16 [1, 0, 127]).drop 44 = [1, 0, 127]
    ∧ main 2 zero_env (Gain.finite 1 0) (wav44 1 16 [1, 0, 127])
        = some (Outcome.exit 0 ((wav44 1 16 [1, 0, 127]).take 44 ++ [1, 0])) := by
  decide

/-- C16, amended: take two files that differ only in the 4 size bytes of the data chunk
header (container header, the same well-formed chunks, the data chunk header, the same
bytes `rest` up to the end of the file).  Both are accepted with the same data payload
offset and the same descriptor, and in the same environment the sample loop writes the
same bytes for both, so the outputs agree after the header bytes.  For a 16-bit
descriptor with at least one channel and `close` never set, every complete 2-byte
sample of `rest` (chunks that follow the data payload included) is decoded and scaled
at its position in the output; when the number of these complete samples is a multiple
of the channel count (always so for one channel), exactly two bytes are written per
complete sample and nothing else, so a final odd byte is not decoded. -/
theorem data_size_ignored (env : Env) (gain : Gain) (riff_sz : Nat) (l : List Chunk)
    (s1 s2 rest : List Byte)
    (hok : ∀ ch ∈ l, chunk_ok ch) (h1 : s1.length = 4) (h2 : s2.length = 4)
    (hbits : bits_per_sample (fmt_after l env.chunk_fmt) = 16)
    (hch : 1 ≤ num_channels (fmt_after l env.chunk_fmt))
    (hmalloc : env.malloc_null (buffer_size (fmt_after l env.chunk_fmt)) = false) :
    ∃ (st1 st2 : Reader) (out : List Byte),
      accepts (l.length + 1) env (riff_file riff_sz l s1 rest) st1
      ∧ accepts (l.length + 1) env (riff_file riff_sz l s2 rest) st2
      ∧ st1.pos = 12 + (chunks_bytes l).length + 8
      ∧ st2.pos = st1.pos
      ∧ st2.chunk_fmt = st1.chunk_fmt
      ∧ (riff_file riff_sz l s1 rest).drop st1.pos = rest
      ∧ (riff_file riff_sz l s2 rest).drop st2.pos = rest
      ∧ sample_loop gain env.close (riff_file riff_sz l s1 rest) (buffer_size st1.chunk_fmt)
          (bytes_per_sample st1.chunk_fmt) (num_channels st1.chunk_fmt)
          ((riff_file riff_sz l s1 rest).length + 1) 0 st1.pos env.buffer = some out
      ∧ sample_loop gain env.close (riff_file riff_sz l s2 rest) (buffer_size st2.chunk_fmt)
          (bytes_per_sample st2.chunk_fmt) (num_channels st2.chunk_fmt)
          ((riff_file riff_sz l s2 rest).length + 1) 0 st2.pos env.buffer = some out
      ∧ (st1.pos ≤ 100 →
          main (l.length + 1) env gain (riff_file riff_sz l s1 rest)
            = some (Outcome.exit 0 ((riff_file riff_sz l s1 rest).take st1.pos ++ out))
          ∧ main (l.length + 1) env gain (riff_file riff_sz l s2 rest)
            = some (Outcome.exit 0 ((riff_file riff_sz l s2 rest).take st2.pos ++ out)))
      ∧ ((∀ j, env.close j = false) →
          2 * (rest.length / 2) ≤ out.length
          ∧ (∀ k, 2 * k + 1 < rest.length →
              sample16 out k = apply_gain gain (sample16 rest k))
          ∧ ((rest.length / 2) % num_channels st1.chunk_fmt = 0 →
              out.length = 2 * (rest.length / 2))) := by
  obtain ⟨hdr1, hacc1⟩ := riff_file_accepts env riff_sz l s1 rest hok h1
  obtain ⟨hdr2, hacc2⟩ := riff_file_accepts env riff_sz l s2 rest hok h2
  have hd1 := riff_file_drop riff_sz l s1 rest h1
  have hd2 := riff_file_drop riff_sz l s2 rest h2
  have hl1 := riff_file_length riff_sz l s1 rest h1
  have hl2 := riff_file_length riff_sz l s2 rest h2
  obtain ⟨out, hout⟩ := sample_loop_some gain env.close (riff_file riff_sz l s1 rest)
    (bytes_per_sample (fmt_after l env.chunk_fmt)) (num_channels (fmt_after l env.chunk_fmt))
    ((riff_file riff_sz l s1 rest).length + 1) 0 (12 + (chunks_bytes l).length + 8) env.buffer
    (by omega)
  have hout2 : sample_loop gain env.close (riff_file riff_sz l s2 rest)
      (num_channels (fmt_after l env.chunk_fmt) * bytes_per_sample (fmt_after l env.chunk_fmt)
        * 1024)
      (bytes_per_sample (fmt_after l env.chunk_fmt)) (num_channels (fmt_after l env.chunk_fmt))
      ((riff_file riff_sz l s2 rest).length + 1) 0 (12 + (chunks_bytes l).length + 8) env.buffer
      = some out := by
    rw [← sample_loop_congr gain env.close (riff_file riff_sz l s1 rest)
      (riff_file riff_sz l s2 rest) _ _ _ _ 0 _ env.buffer (by rw [hd1, hd2]), hl2, ← hl1]
    exact hout
  refine ⟨Reader.mk (12 + (chunks_bytes l).length + 8) hdr1 (fmt_after l env.chunk_fmt),
    Reader.mk (12 + (chunks_bytes l).length + 8) hdr2 (fmt_after l env.chunk_fmt), out,
    hacc1, hacc2, rfl, rfl, rfl, hd1, hd2, hout, hout2, ?_, ?_⟩
  · intro h100
    constructor
    · rw [main_of_accepts _ hacc1]
      exact after_walk_of_loop env gain _ _ out hmalloc (accepts_pos_le hacc1) h100 hout
    · rw [main_of_accepts _ hacc2]
      exact after_walk_of_loop env gain _ _ out hmalloc (accepts_pos_le hacc2) h100 hout2
  · intro hclose
    obtain ⟨stale, hall⟩ := sample_loop_all gain env.close (riff_file riff_sz l s1 rest)
      (num_channels (fmt_after l env.chunk_fmt)) hch hclose
      ((riff_file riff_sz l s1 rest).length + 1) 0 (12 + (chunks_bytes l).length + 8) env.buffer
      (by omega)
    rw [bytes_per_sample_16 hbits] at hout
    rw [hout, hd1] at hall
    have hout_eq : out = scale_samples gain rest ++ stale := Option.some.inj hall
    have hlen := scale_samples_length_any gain _ rest (Nat.le_refl _)
    refine ⟨?_, ?_, ?_⟩
    · rw [hout_eq, List.length_append, hlen]; omega
    · intro k hk
      rw [hout_eq, sample16_append_left _ _ _ (by rw [hlen]; omega)]
      exact scale_samples_get gain k rest hk
    · intro hs
      have hwhole := sample_loop_samples gain env.close (riff_file riff_sz l s1 rest)
        (num_channels (fmt_after l env.chunk_fmt)) hch hclose
        ((riff_file riff_sz l s1 rest).length + 1) 0 (12 + (chunks_bytes l).length + 8)
        env.buffer (by omega) (by rw [← List.length_drop, hd1]; exact hs)
      rw [hout, hd1] at hwhole
      rw [Option.some.inj hwhole]
      exact hlen

theorem data_size_ignored_witness :
    (∀ ch ∈ [Chunk.mk ID_FMT (fmt_payload 1 16)], chunk_ok ch)
    ∧ ∃ out : List Byte,
        main 2 zero_env (Gain.finite 1 1)
            (riff_file 40 [Chunk.mk ID_FMT (fmt_payload 1 16)] (bytes32 4) [1, 0, 2, 0])
          = some (Outcome.exit 0
              ((riff_file 40 [Chunk.mk ID_FMT (fmt_payload 1 16)] (bytes32 4) [1, 0, 2, 0]).take 44
                ++ out))
        ∧ main 2 zero_env (Gain.finite 1 1)
            (riff_file 40 [Chunk.mk ID_FMT (fmt_payload 1 16)] (bytes32 99999) [1, 0, 2, 0])
          = some (Outcome.exit 0
              ((riff_file 40 [Chunk.mk ID_FMT (fmt_payload 1 16)] (bytes32 99999)
                [1, 0, 2, 0]).take 44 ++ out)) :=
  ⟨by decide,
   by
    obtain ⟨st1, st2, out, _, _, hp1, hp2, _, _, _, _, _, hmain, _⟩ :=
      data_size_ignored zero_env (Gain.finite 1 1) 40 [Chunk.mk ID_FMT (fmt_payload 1 16)]
        (bytes32 4) (bytes32 99999) [1, 0, 2, 0] (by decide) rfl rfl (by decide) (by decide) rfl
    have e1 : st1.pos = 44 := hp1.trans (by decide)
    have e2 : st2.pos = 44 := hp2.trans e1
    rw [e1, e2] at hmain
    exact ⟨out, hmain (by decide)⟩⟩

end Wavgain
